import Mathlib

/-!
Verification of the CRUSH-style placement engine in `src/crush/crush.rs`.

Shallow embedding conventions:
* Rust `u64` / `u32` values are `Nat`, with explicit `% 2^64` / `% 2^32`
  wrapping where the Rust code wraps.
* `BTreeMap<String, Node>` is an association list `List (String × Node)`
  kept in strictly increasing key order by the ordered-insert operation
  `setChild`; iteration order is list order.
* Fallible code (Rust indexing / `unwrap` panics, division by zero) is
  modelled with `Option`.
* The unbounded `loop` in `Crush::select` and the `while` loops of the
  locators take an explicit fuel argument; `none` means the fuel ran out
  (or a panic occurred), `some` means the code returned.
* `DefaultHasher` (Rust std, not part of this repository) is modelled
  from the spec as an abstract parameter `hf : String → Nat → Nat → Nat`,
  the stable 64-bit hash of `(name, key, index)`.
* `LN_TABLE` is computed with `f64` logarithms in the source; floating
  point is not translated, so table lookup is an abstract parameter
  `tbl : Nat → Nat`.  All theorems below hold for every `hf` and `tbl`.
-/

/-- Wrap an integer into `[0, 2^64)`, the effect of the Rust cast chain
`(w as i64 + delta) as u64`. -/
def wrap64 (x : Int) : Nat := (x % (2 ^ 64 : Int)).toNat

/-- A node of the cluster map (`struct Node` in the source).  The
`children` association list models the `BTreeMap<String, Node>`. -/
inductive Node where
  | mk (weight : Nat) (out : Bool) (typeName : String) (children : List (String × Node))

/-- Field accessor: `weight`. -/
def Node.weight : Node → Nat
  | .mk w _ _ _ => w

/-- Field accessor: `out`. -/
def Node.out : Node → Bool
  | .mk _ o _ _ => o

/-- Field accessor: `children`. -/
def Node.children : Node → List (String × Node)
  | .mk _ _ _ ch => ch

/-- Field accessor: `_type` (written `typeName` here); the field is never
read or written by the source outside of `Default`. -/
def Node.typeName : Node → String
  | .mk _ _ t _ => t

/-- The `Default` instance of `Node`: weight 0, in, no children. -/
def Node.defaultNode : Node := .mk 0 false ("") []

@[simp] theorem Node.weight_mk (w o t ch) : (Node.mk w o t ch).weight = w := rfl

@[simp] theorem Node.out_mk (w o t ch) : (Node.mk w o t ch).out = o := rfl

@[simp] theorem Node.children_mk (w o t ch) : (Node.mk w o t ch).children = ch := rfl

/-- Lexicographic strict order on character lists by code point; on
UTF-8 strings this is exactly the byte-wise `Ord` used by Rust's
`BTreeMap<String, _>`. -/
def charListLtB : List Char → List Char → Bool
  | [], [] => false
  | [], _ :: _ => true
  | _ :: _, [] => false
  | a :: as, b :: bs =>
    if a.toNat < b.toNat then true
    else if a.toNat = b.toNat then charListLtB as bs
    else false

/-- The `BTreeMap` key order on strings. -/
def strLtB (s t : String) : Bool := charListLtB s.data t.data

/-- First-match association lookup, the `children[name]` / `children.get`
of the `BTreeMap`. -/
def lookupChild : List (String × Node) → String → Option Node
  | [], _ => none
  | (k, v) :: rest, name => if name = k then some v else lookupChild rest name

/-- Ordered insert-or-replace, the `children.entry(name)` /
`children.insert` of the `BTreeMap`: keeps keys in increasing order. -/
def setChild : List (String × Node) → String → Node → List (String × Node)
  | [], name, c => [(name, c)]
  | (k, v) :: rest, name, c =>
    if strLtB name k then (name, c) :: (k, v) :: rest
    else if name = k then (name, c) :: rest
    else (k, v) :: setChild rest name c

/-- The key list produced by `setChild`, used to state frame conditions. -/
def insertKey : List String → String → List String
  | [], name => [name]
  | k :: rest, name =>
    if strLtB name k then name :: k :: rest
    else if name = k then name :: rest
    else k :: insertKey rest name

/-- `Node::add_weight`: adds `delta` (an `i64`, wrapping) to the weight of
every node along `path`, creating missing children with default state. -/
def Node.add_weight (n : Node) (path : List String) (delta : Int) : Node :=
  match path with
  | [] => .mk (wrap64 ((n.weight : Int) + delta)) n.out n.typeName n.children
  | name :: suffix =>
    let old := (lookupChild n.children name).getD Node.defaultNode
    .mk (wrap64 ((n.weight : Int) + delta)) n.out n.typeName
      (setChild n.children name (old.add_weight suffix delta))

/-- `Node::get`: path lookup; `none` models the Rust panic on a missing
path. -/
def Node.get : Node → List String → Option Node
  | n, [] => some n
  | n, name :: suffix => (lookupChild n.children name).bind fun c => c.get suffix

/-- `Crush::set_inout` pushed into the node: sets the `out` flag of the
node at `path`; `none` models the panic on a missing path. -/
def Node.set_inout : Node → List String → Bool → Option Node
  | .mk w _o t ch, [], b => some (.mk w b t ch)
  | .mk w o t ch, name :: suffix, b =>
    (lookupChild ch name).bind fun c =>
      (c.set_inout suffix b).map fun c' => .mk w o t (setChild ch name c')

/-- The straw draw of one child: `LN_TABLE[hash & 65535] / child.weight`
(with `tbl` the table lookup and `hf` the hash of `(name, key, index)`). -/
def straw (hf : String → Nat → Nat → Nat) (tbl : Nat → Nat)
    (key index : Nat) (name : String) (c : Node) : Nat :=
  tbl (hf name key index &&& 65535) / c.weight

/-- Rust `Iterator::min_by_key`: the first element with minimal key, or
`none` on an empty iterator. -/
def minByKeyFirst : List (String × Nat) → Option (String × Nat)
  | [] => none
  | x :: xs =>
    match minByKeyFirst xs with
    | none => some x
    | some y => if x.2 ≤ y.2 then some x else some y

/-- `Node::choose`: the straw draw over all children.  `none` models the
panics: `unwrap` on an empty children map, and division by zero when some
child has weight 0. -/
def Node.choose (hf : String → Nat → Nat → Nat) (tbl : Nat → Nat)
    (n : Node) (key index : Nat) : Option String :=
  if n.children.any fun p => p.2.weight == 0 then none
  else (minByKeyFirst (n.children.map fun p =>
    (p.1, straw hf tbl key index p.1 p.2))).map fun p => p.1

/-- Modelled from the spec: the §4.2 description of `choose`, which
considers only children with positive weight that are not `out`.  Used
solely to compare against the implementation's `Node.choose`. -/
def Node.chooseSpec (hf : String → Nat → Nat → Nat) (tbl : Nat → Nat)
    (n : Node) (key index : Nat) : Option String :=
  (minByKeyFirst ((n.children.filter fun p => 0 < p.2.weight && p.2.out = false).map
    fun p => (p.1, straw hf tbl key index p.1 p.2))).map fun p => p.1

/-- The CRUSH engine (`struct Crush`). -/
structure Crush where
  root : Node

/-- The empty engine (`Crush::default()`). -/
def emptyCrush : Crush := ⟨Node.defaultNode⟩

/-- `Crush::add_weight`. -/
def Crush.add_weight (c : Crush) (path : List String) (delta : Int) : Crush :=
  ⟨c.root.add_weight path delta⟩

/-- `Crush::total_weight`. -/
def Crush.total_weight (c : Crush) : Nat := c.root.weight

/-- `Crush::get_weight`; `none` models the panic on a missing path. -/
def Crush.get_weight (c : Crush) (path : List String) : Option Nat :=
  (c.root.get path).map Node.weight

/-- `Crush::set_inout`; `none` models the panic on a missing path. -/
def Crush.set_inout (c : Crush) (path : List String) (b : Bool) : Option Crush :=
  (c.root.set_inout path b).map fun r => ⟨r⟩

/-- `Crush::get_inout`; `none` models the panic on a missing path. -/
def Crush.get_inout (c : Crush) (path : List String) : Option Bool :=
  (c.root.get path).map Node.out

/-- Observation: the weight of the node at a path. -/
def Crush.weightAt? (c : Crush) (p : List String) : Option Nat :=
  (c.root.get p).map Node.weight

/-- Observation: the out flag of the node at a path. -/
def Crush.outAt? (c : Crush) (p : List String) : Option Bool :=
  (c.root.get p).map Node.out

/-- Observation: the child names of the node at a path, in iteration
order. -/
def Crush.namesAt? (c : Crush) (p : List String) : Option (List String) :=
  (c.root.get p).map fun n => n.children.map Prod.fst

/-- The body of the `loop` in `Crush::select`, selecting one replica.
Arguments after `targets`: fuel, current `node`, `failure_count`,
`local_failure`, `fullname` (as a component list).  Returns the accepted
`fullname` together with the `failure_count` at acceptance; `none` on
fuel exhaustion or on a modelled panic. -/
def selectOne (hf : String → Nat → Nat → Nat) (tbl : Nat → Nat) (root : Node)
    (pgid r : Nat) (targets : List (List String)) :
    Nat → Node → Nat → Nat → List String → Option (List String × Nat)
  | 0, _, _, _, _ => none
  | fuel + 1, node, fc, lf, fullname =>
    match Node.choose hf tbl node pgid (r + fc) with
    | none => none
    | some name =>
      let fullname2 := fullname ++ [name]
      match lookupChild node.children name with
      | none => none
      | some child =>
        if child.out = false ∧ fullname2 ∉ targets then
          some (fullname2, fc)
        else
          if lf + 1 > 3 then
            selectOne hf tbl root pgid r targets fuel root (fc + 1) 0 []
          else
            selectOne hf tbl root pgid r targets fuel node (fc + 1) (lf + 1)
              fullname2.dropLast

/-- The `for r in 0..num` loop of `Crush::select`: `k` replicas remain,
`r` is the current replica ordinal, `fc` the running `failure_count`. -/
def selectOuter (hf : String → Nat → Nat → Nat) (tbl : Nat → Nat)
    (root start : Node) (pgid fuel : Nat) :
    Nat → Nat → Nat → List (List String) → Option (List (List String))
  | 0, _, _, targets => some targets
  | k + 1, r, fc, targets =>
    match selectOne hf tbl root pgid r targets fuel start fc 0 [] with
    | none => none
    | some (fn, fc') => selectOuter hf tbl root start pgid fuel k (r + 1) fc' (targets ++ [fn])

/-- `Crush::select`: select `num` targets for `pgid` starting from the
node at `start_path`.  `none` models a panic (missing start path, a
`choose` panic) or fuel exhaustion of the retry loop. -/
def Crush.select (hf : String → Nat → Nat → Nat) (tbl : Nat → Nat) (c : Crush)
    (pgid num : Nat) (start_path : List String) (fuel : Nat) :
    Option (List (List String)) :=
  match c.root.get start_path with
  | none => none
  | some start => selectOuter hf tbl c.root start pgid fuel num 0 0 []

/-- Boolean list-of-chars pattern test: is `pat` a leading segment? -/
def isPfxB : List Char → List Char → Bool
  | [], _ => true
  | _ :: _, [] => false
  | a :: as, b :: bs => a == b && isPfxB as bs

/-- Boolean substring test on character lists, the model of Rust
`str::contains`. -/
def containsB : List Char → List Char → Bool
  | [], pat => pat.isEmpty
  | a :: as, pat => isPfxB pat (a :: as) || containsB as pat

/-- The path separator. -/
def slashStr : String := "/"

/-- The leaf-marker substring. -/
def osdStr : String := "osd"

/-- Join a component list back into the slash-separated Rust path string. -/
def joinPath (p : List String) : String := String.intercalate slashStr p

/-- `path.contains("osd")` on the joined path string. -/
def pathContainsOsd (p : List String) : Bool :=
  containsB (joinPath p).data osdStr.data

/-- Substring test on a single name (used by `get_osds`). -/
def nameContainsOsd (s : String) : Bool := containsB s.data osdStr.data

/-- The `while !path.contains("osd")` loop of `Crush::locate`. -/
def locateGo (hf : String → Nat → Nat → Nat) (tbl : Nat → Nat) (c : Crush)
    (pgid selFuel : Nat) : Nat → List String → Option (List String)
  | 0, _ => none
  | fuel + 1, p =>
    if pathContainsOsd p then some p
    else
      match Crush.select hf tbl c pgid 1 p selFuel with
      | some (s :: _) => locateGo hf tbl c pgid selFuel fuel (p ++ s)
      | _ => none

/-- `Crush::locate`. -/
def Crush.locate (hf : String → Nat → Nat → Nat) (tbl : Nat → Nat) (c : Crush)
    (pgid selFuel fuel : Nat) : Option (List String) :=
  locateGo hf tbl c pgid selFuel fuel []

/-- The per-path descent loop of `Crush::locate_all`. -/
def descendGo (hf : String → Nat → Nat → Nat) (tbl : Nat → Nat) (c : Crush)
    (pgid selFuel : Nat) : Nat → List String → Option (List String)
  | 0, _ => none
  | fuel + 1, p =>
    if pathContainsOsd p then some p
    else
      match Crush.select hf tbl c pgid 1 p selFuel with
      | none => none
      | some ss => descendGo hf tbl c pgid selFuel fuel (p ++ ss.flatten)

/-- The fuel argument of `descendGo` only bounds the loop: on success the
result's first component is the first component of the input path. -/
theorem descendGo_head (hf : String → Nat → Nat → Nat) (tbl : Nat → Nat) (c : Crush)
    (pgid selFuel : Nat) :
    ∀ fuel p q, descendGo hf tbl c pgid selFuel fuel p = some q → p ≠ [] →
      q.head? = p.head? := by
  intro fuel
  induction fuel with
  | zero => intro p q h _; simp [descendGo] at h
  | succ fuel ih =>
    intro p q h hne
    simp only [descendGo] at h
    split at h
    · cases h; rfl
    · split at h
      · simp at h
      · rename_i ss hss
        obtain ⟨a, as, rfl⟩ := List.exists_cons_of_ne_nil hne
        have := ih ((a :: as) ++ ss.flatten) q h (by simp)
        simpa using this

/-- Insertion into a list sorted by the joined path string. -/
def insertSortedPath (x : List String) : List (List String) → List (List String)
  | [] => [x]
  | y :: ys =>
    if joinPath x ≤ joinPath y then x :: y :: ys else y :: insertSortedPath x ys

/-- `Vec::sort` on the final path list (ascending by path string; only
the ordering matters for the claims, and membership is preserved). -/
def sortPaths : List (List String) → List (List String)
  | [] => []
  | x :: xs => insertSortedPath x (sortPaths xs)

/-- The `for p in paths.iter_mut()` loop of `Crush::locate_all`:
descends every selected path to a leaf. -/
def descendAll (hf : String → Nat → Nat → Nat) (tbl : Nat → Nat) (c : Crush)
    (pgid selFuel descFuel : Nat) : List (List String) → Option (List (List String))
  | [] => some []
  | p :: ps =>
    match descendGo hf tbl c pgid selFuel descFuel p,
        descendAll hf tbl c pgid selFuel descFuel ps with
    | some q, some qs => some (q :: qs)
    | _, _ => none

/-- `Crush::locate_all`. -/
def Crush.locate_all (hf : String → Nat → Nat → Nat) (tbl : Nat → Nat) (c : Crush)
    (pgid replicas selFuel descFuel : Nat) : Option (List (List String)) :=
  match Crush.select hf tbl c pgid replicas [] selFuel with
  | none => none
  | some ps => (descendAll hf tbl c pgid selFuel descFuel ps).map sortPaths

/-- Wrapping `u32` decrement by one: `n - 1` with underflow wrap. -/
def sub1u32 (n : Nat) : Nat := (n + 2 ^ 32 - 1) % 2 ^ 32

/-- The `while n & n - 1 != 0 { n = n & n - 1 }` loop of
`find_next_power_of_2`. -/
def findLoop (n : Nat) : Nat :=
  if h : n &&& sub1u32 n = 0 then n else findLoop (n &&& sub1u32 n)
termination_by n
decreasing_by
  have h1 : n &&& sub1u32 n ≤ sub1u32 n := Nat.and_le_right
  have hn : n ≠ 0 := by
    rintro rfl
    exact h (Nat.zero_and _)
  by_cases h2 : n < 2 ^ 32
  · have hs : sub1u32 n = n - 1 := by
      unfold sub1u32
      omega
    omega
  · have h3 : sub1u32 n < 2 ^ 32 := Nat.mod_lt _ (by norm_num)
    omega

/-- `find_next_power_of_2` (u32, wrapping semantics). -/
def find_next_power_of_2 (n : Nat) : Nat :=
  (findLoop (sub1u32 n)) <<< 1 % 2 ^ 32

mutual

/-- `Crush::get_osds`: counts the child entries named `*osd*`, recursing
into the others. -/
def Node.get_osds : Node → Nat
  | .mk _ _ _ ch => getOsdsList ch

/-- Helper for `Node.get_osds` over the children list. -/
def getOsdsList : List (String × Node) → Nat
  | [] => 0
  | (name, c) :: rest =>
    (if nameContainsOsd name then 1 else c.get_osds) + getOsdsList rest

end

/-- `Crush::get_recommended_pgs`; `none` models the division-by-zero
panic at `replicas = 0`, and the `u32` multiplication wraps. -/
def Crush.get_recommended_pgs (c : Crush) (replicas : Nat) : Option Nat :=
  if replicas = 0 then none
  else some (find_next_power_of_2 (c.root.get_osds * 100 % 2 ^ 32 / replicas))

/-! ### Association-list lemmas -/

theorem lookup_setChild (l : List (String × Node)) (k : String) (c : Node) (s : String) :
    lookupChild (setChild l k c) s = if s = k then some c else lookupChild l s := by
  induction l with
  | nil => simp [setChild, lookupChild]
  | cons hd tl ih =>
    obtain ⟨k', v⟩ := hd
    by_cases h1 : strLtB k k' = true
    · simp only [setChild, if_pos h1, lookupChild]
    · by_cases h3 : k = k'
      · subst h3
        simp only [setChild, if_neg h1, if_pos rfl, lookupChild]
        by_cases h2 : s = k <;> simp [h2]
      · simp only [setChild, if_neg h1, if_neg h3, lookupChild]
        by_cases h2 : s = k'
        · subst h2
          have : ¬ s = k := fun h => h3 h.symm
          simp [this]
        · simp [h2, ih]

theorem keys_setChild (l : List (String × Node)) (k : String) (c : Node) :
    (setChild l k c).map Prod.fst = insertKey (l.map Prod.fst) k := by
  induction l with
  | nil => simp [setChild, insertKey]
  | cons hd tl ih =>
    obtain ⟨k', v⟩ := hd
    by_cases h1 : strLtB k k' = true
    · simp [setChild, insertKey, h1]
    · by_cases h3 : k = k'
      · subst h3; simp [setChild, insertKey, h1]
      · simp [setChild, insertKey, h1, h3, ih]

/-! ### Soundness of the selection loop -/

theorem selectOne_sound (hf : String → Nat → Nat → Nat) (tbl : Nat → Nat)
    (st root : Node) (pgid r : Nat) (targets : List (List String)) :
    ∀ fuel (node : Node) fc lf, (node = st ∨ node = root) →
    ∀ p fc', selectOne hf tbl root pgid r targets fuel node fc lf [] = some (p, fc') →
    ∃ name child, p = [name] ∧
      (lookupChild st.children name = some child ∨
        lookupChild root.children name = some child) ∧
      child.out = false ∧ p ∉ targets := by
  intro fuel
  induction fuel with
  | zero => intro node fc lf _ p fc' h; simp [selectOne] at h
  | succ fuel ih =>
    intro node fc lf hnode p fc' h
    simp only [selectOne, List.nil_append] at h
    split at h
    · exact absurd h (by simp)
    · rename_i name hch
      split at h
      · exact absurd h (by simp)
      · rename_i child hlk
        split at h
        · rename_i hacc
          obtain ⟨hp, hfc⟩ := Prod.mk.injEq _ _ _ _ |>.mp (Option.some.inj h)
          refine ⟨name, child, hp.symm, ?_, hacc.1, hp ▸ hacc.2⟩
          cases hnode with
          | inl he => exact Or.inl (he ▸ hlk)
          | inr he => exact Or.inr (he ▸ hlk)
        · rename_i hacc
          split at h
          · exact ih root (fc + 1) 0 (Or.inr rfl) p fc' h
          · have hdrop : ([name] : List String).dropLast = [] := rfl
            rw [hdrop] at h
            exact ih node (fc + 1) (lf + 1) hnode p fc' h

theorem selectOuter_sound (hf : String → Nat → Nat → Nat) (tbl : Nat → Nat)
    (root st : Node) (pgid fuel : Nat) :
    ∀ k r fc targets ts,
    selectOuter hf tbl root st pgid fuel k r fc targets = some ts →
    ts.length = targets.length + k ∧ (targets.Nodup → ts.Nodup) ∧
    ∀ p ∈ ts, p ∈ targets ∨ ∃ name child, p = [name] ∧
      (lookupChild st.children name = some child ∨
        lookupChild root.children name = some child) ∧ child.out = false := by
  intro k
  induction k with
  | zero =>
    intro r fc targets ts h
    simp only [selectOuter] at h
    cases h
    exact ⟨rfl, fun hn => hn, fun p hp => Or.inl hp⟩
  | succ k ih =>
    intro r fc targets ts h
    simp only [selectOuter] at h
    cases hone : selectOne hf tbl root pgid r targets fuel st fc 0 [] with
    | none => rw [hone] at h; simp at h
    | some res =>
      obtain ⟨fn, fc'⟩ := res
      rw [hone] at h
      obtain ⟨name, child, hfn, hmem, hout, hnotin⟩ :=
        selectOne_sound hf tbl st root pgid r targets fuel st fc 0 (Or.inl rfl) fn fc' hone
      obtain ⟨hlen, hnodup, hprops⟩ := ih (r + 1) fc' (targets ++ [fn]) ts h
      refine ⟨by simp only [List.length_append, List.length_singleton] at hlen; omega, ?_, ?_⟩
      · intro hnd
        apply hnodup
        simp [List.nodup_append, hnd, hnotin]
      · intro p hp
        rcases hprops p hp with hin | hex
        · rcases List.mem_append.mp hin with h1 | h2
          · exact Or.inl h1
          · have : p = fn := by simpa using h2
            exact Or.inr ⟨name, child, this ▸ hfn, hmem, hout⟩
        · exact Or.inr hex

theorem descendAll_mem (hf : String → Nat → Nat → Nat) (tbl : Nat → Nat) (c : Crush)
    (pgid selFuel descFuel : Nat) :
    ∀ ps qs, descendAll hf tbl c pgid selFuel descFuel ps = some qs →
      ∀ q ∈ qs, ∃ p ∈ ps, descendGo hf tbl c pgid selFuel descFuel p = some q := by
  intro ps
  induction ps with
  | nil =>
    intro qs h q hq
    simp only [descendAll] at h
    cases h
    simp at hq
  | cons p rest ih =>
    intro qs h q hq
    simp only [descendAll] at h
    split at h
    · rename_i q0 qs0 hq0 hqs0
      cases h
      rcases List.mem_cons.mp hq with rfl | hmem
      · exact ⟨p, List.mem_cons_self .., hq0⟩
      · obtain ⟨p', hp', hd⟩ := ih qs0 hqs0 q hmem
        exact ⟨p', List.mem_cons_of_mem _ hp', hd⟩
    · simp at h

theorem mem_insertSortedPath (x y : List String) (l : List (List String)) :
    y ∈ insertSortedPath x l → y = x ∨ y ∈ l := by
  induction l with
  | nil => intro h; simpa [insertSortedPath] using h
  | cons a as ih =>
    intro h
    simp only [insertSortedPath] at h
    split at h
    · rcases List.mem_cons.mp h with rfl | h2
      · exact Or.inl rfl
      · exact Or.inr h2
    · rcases List.mem_cons.mp h with rfl | h2
      · exact Or.inr (List.mem_cons_self ..)
      · rcases ih h2 with h3 | h3
        · exact Or.inl h3
        · exact Or.inr (List.mem_cons_of_mem _ h3)

theorem mem_sortPaths (y : List String) (l : List (List String)) :
    y ∈ sortPaths l → y ∈ l := by
  induction l with
  | nil => intro h; simpa [sortPaths] using h
  | cons a as ih =>
    intro h
    rcases mem_insertSortedPath a y (sortPaths as) h with rfl | h2
    · exact List.mem_cons_self ..
    · exact List.mem_cons_of_mem _ (ih h2)

/-! ### Concrete material for witnesses and counterexamples

The hash and table parameters below are stand-ins; every claim theorem
is generic in `hf` and `tbl`, so any instantiation is legitimate. -/

/-- A constant stand-in hash function. -/
def hfZero : String → Nat → Nat → Nat := fun _ _ _ => 0

/-- A constant stand-in logarithm table. -/
def tblOne : Nat → Nat := fun _ => 1

/-- An engine with a single osd of weight 1. -/
def crushOneOsd : Crush := emptyCrush.add_weight [("osd.1" : String)] 1

/-- An engine whose only leaf, `host.1/osd.1`, is marked out. -/
def crushEsc : Crush :=
  ((emptyCrush.add_weight [("host.1" : String), ("osd.1" : String)] 1).set_inout
      [("host.1" : String), ("osd.1" : String)] true).getD emptyCrush

/-! ### C1 -/

/-- C1: for every cluster map, pgid, count and resolvable start path,
whenever `select(pgid, num, start_path)` returns, the returned list has
exactly `num` entries and its entries are pairwise distinct. -/
theorem c1_select_length_nodup (hf : String → Nat → Nat → Nat) (tbl : Nat → Nat)
    (c : Crush) (pgid num : Nat) (sp : List String) (fuel : Nat)
    (ts : List (List String))
    (h : Crush.select hf tbl c pgid num sp fuel = some ts) :
    ts.length = num ∧ ts.Nodup := by
  unfold Crush.select at h
  cases hg : c.root.get sp with
  | none => rw [hg] at h; simp at h
  | some start =>
    rw [hg] at h
    obtain ⟨hlen, hnd, _⟩ := selectOuter_sound hf tbl c.root start pgid fuel num 0 0 [] ts h
    exact ⟨by simpa using hlen, hnd (by simp)⟩

/-- Witness for C1: a concrete successful selection. -/
theorem c1_witness :
    Crush.select hfZero tblOne crushOneOsd 0 1 [] 2 = some [[("osd.1" : String)]] ∧
    ([[("osd.1" : String)]] : List (List String)).length = 1 ∧
    ([[("osd.1" : String)]] : List (List String)).Nodup :=
  ⟨by decide, c1_select_length_nodup hfZero tblOne crushOneOsd 0 1 [] 2 _ (by decide)⟩

/-! ### C4 -/

/-- C4 counterexample: in `crushEsc`, selecting from start path `host.1`
(whose only child is the out-marked `osd.1`) escalates to the root and
returns the name `host.1`, which is not among the children of the start
node (those are exactly `[osd.1]`). -/
theorem c4_counterexample :
    Crush.select hfZero tblOne crushEsc 0 1 [("host.1" : String)] 6 =
      some [[("host.1" : String)]] ∧
    crushEsc.namesAt? [("host.1" : String)] = some [("osd.1" : String)] ∧
    ("host.1" : String) ∉ [("osd.1" : String)] :=
  ⟨by decide, by decide, by decide⟩

/-- C4 (amended): every entry returned by `select` is a single name that
names an existing child of the node resolved from `start_path` or, when
the retry loop escalated, an existing child of the root. -/
theorem c4_names_relative (hf : String → Nat → Nat → Nat) (tbl : Nat → Nat)
    (c : Crush) (pgid num : Nat) (sp : List String) (fuel : Nat)
    (ts : List (List String)) (start : Node)
    (hg : c.root.get sp = some start)
    (h : Crush.select hf tbl c pgid num sp fuel = some ts) :
    ∀ p ∈ ts, ∃ name child, p = [name] ∧
      (lookupChild start.children name = some child ∨
        lookupChild c.root.children name = some child) := by
  unfold Crush.select at h
  rw [hg] at h
  obtain ⟨_, _, hprops⟩ := selectOuter_sound hf tbl c.root start pgid fuel num 0 0 [] ts h
  intro p hp
  rcases hprops p hp with hin | ⟨name, child, h1, h2, _⟩
  · simp at hin
  · exact ⟨name, child, h1, h2⟩

/-- Witness for the amended C4 at a concrete engine. -/
theorem c4_witness :
    ∃ name child, [("osd.1" : String)] = [name] ∧
      (lookupChild crushOneOsd.root.children name = some child ∨
        lookupChild crushOneOsd.root.children name = some child) :=
  c4_names_relative hfZero tblOne crushOneOsd 0 1 [] 2 [[("osd.1" : String)]]
    crushOneOsd.root rfl (by decide) [("osd.1" : String)] (by decide)

/-! ### C3 -/

/-- C3: `select` only accepts children whose `out` flag is false: every
returned entry is a single name denoting a not-out child of the node it
was accepted at (the start node, or the root after escalation); in
particular every path returned by a root-level `select` or by
`locate_all` begins with a root child whose `out` flag is false, so no
returned path begins with the name of an out-marked top-level subtree. -/
theorem c3_out_never_selected :
    (∀ (hf : String → Nat → Nat → Nat) (tbl : Nat → Nat) (c : Crush)
      (pgid num : Nat) (sp : List String) (fuel : Nat)
      (ts : List (List String)) (start : Node), c.root.get sp = some start →
      Crush.select hf tbl c pgid num sp fuel = some ts →
      ∀ p ∈ ts, ∃ name child, p = [name] ∧
        (lookupChild start.children name = some child ∨
          lookupChild c.root.children name = some child) ∧
        child.out = false) ∧
    ∀ (hf : String → Nat → Nat → Nat) (tbl : Nat → Nat) (c : Crush)
      (pgid replicas selFuel descFuel : Nat) (ps : List (List String)),
      Crush.locate_all hf tbl c pgid replicas selFuel descFuel = some ps →
      ∀ p ∈ ps, ∃ name child, p.head? = some name ∧
        lookupChild c.root.children name = some child ∧ child.out = false := by
  constructor
  · intro hf tbl c pgid num sp fuel ts start hg h
    unfold Crush.select at h
    rw [hg] at h
    obtain ⟨_, _, hprops⟩ := selectOuter_sound hf tbl c.root start pgid fuel num 0 0 [] ts h
    intro p hp
    rcases hprops p hp with hin | ⟨name, child, h1, h2, h3⟩
    · simp at hin
    · exact ⟨name, child, h1, h2, h3⟩
  · intro hf tbl c pgid replicas selFuel descFuel ps h
    unfold Crush.locate_all at h
    split at h
    · simp at h
    · rename_i ps0 hsel
      cases hdesc : descendAll hf tbl c pgid selFuel descFuel ps0 with
      | none => rw [hdesc] at h; simp at h
      | some qs =>
        rw [hdesc] at h
        have h2 : sortPaths qs = ps := by simpa using h
        subst h2
        intro p hp
        obtain ⟨p0, hp0, hgo⟩ :=
          descendAll_mem hf tbl c pgid selFuel descFuel ps0 qs hdesc p (mem_sortPaths p qs hp)
        have hstart : (Crush.root c).get [] = some c.root := rfl
        unfold Crush.select at hsel
        rw [hstart] at hsel
        obtain ⟨_, _, hprops⟩ :=
          selectOuter_sound hf tbl c.root c.root pgid selFuel replicas 0 0 [] ps0 hsel
        rcases hprops p0 hp0 with hin | ⟨name, child, h1, h2, h3⟩
        · simp at hin
        · have hhd : p.head? = p0.head? :=
            descendGo_head hf tbl c pgid selFuel descFuel p0 p hgo (by rw [h1]; simp)
          refine ⟨name, child, ?_, ?_, h3⟩
          · rw [hhd, h1]; rfl
          · rcases h2 with h2 | h2 <;> exact h2

/-- Witness for C3: a concrete selection and locate_all on an engine
with an out-marked top-level subtree. -/
theorem c3_witness :
    (∃ name child, [("osd.1" : String)] = [name] ∧
      (lookupChild crushOneOsd.root.children name = some child ∨
        lookupChild crushOneOsd.root.children name = some child) ∧
      child.out = false) ∧
    ∃ name child, ([("osd.1" : String)] : List String).head? = some name ∧
      lookupChild crushOneOsd.root.children name = some child ∧ child.out = false :=
  ⟨c3_out_never_selected.1 hfZero tblOne crushOneOsd 0 1 [] 2 [[("osd.1" : String)]]
      crushOneOsd.root rfl (by decide) [("osd.1" : String)] (by decide),
    c3_out_never_selected.2 hfZero tblOne crushOneOsd 0 1 2 3 [[("osd.1" : String)]]
      (by decide) [("osd.1" : String)] (by decide)⟩

/-! ### Frame lemmas for add_weight -/

/-- Weight of an optional node, 0 when absent. -/
def optW (o : Option Node) : Nat := (o.map Node.weight).getD 0

/-- Out flag of an optional node, false when absent. -/
def optOut (o : Option Node) : Bool := (o.map Node.out).getD false

/-- Child-name list of an optional node, empty when absent. -/
def optKeys (o : Option Node) : List String :=
  (o.map fun n => n.children.map Prod.fst).getD []

theorem lookup_setChild_self (l : List (String × Node)) (k : String) (c : Node) :
    lookupChild (setChild l k c) k = some c := by
  rw [lookup_setChild]; simp

theorem lookup_setChild_ne (l : List (String × Node)) (k : String) (c : Node)
    (s : String) (h : s ≠ k) : lookupChild (setChild l k c) s = lookupChild l s := by
  rw [lookup_setChild]; simp [h]

theorem optW_child (n : Node) (s : String) (t : List String) :
    optW ((((lookupChild n.children s).getD Node.defaultNode)).get t) =
      optW (n.get (s :: t)) := by
  cases hlk : lookupChild n.children s with
  | none =>
    cases t with
    | nil => simp [Node.get, hlk, Node.defaultNode, optW]
    | cons s' t' => simp [Node.get, hlk, Node.defaultNode, lookupChild, optW]
  | some x => simp [Node.get, hlk]

theorem optOut_child (n : Node) (s : String) (t : List String) :
    optOut ((((lookupChild n.children s).getD Node.defaultNode)).get t) =
      optOut (n.get (s :: t)) := by
  cases hlk : lookupChild n.children s with
  | none =>
    cases t with
    | nil => simp [Node.get, hlk, Node.defaultNode, optOut]
    | cons s' t' => simp [Node.get, hlk, Node.defaultNode, lookupChild, optOut]
  | some x => simp [Node.get, hlk]

theorem optKeys_child (n : Node) (s : String) (t : List String) :
    optKeys ((((lookupChild n.children s).getD Node.defaultNode)).get t) =
      optKeys (n.get (s :: t)) := by
  cases hlk : lookupChild n.children s with
  | none =>
    cases t with
    | nil => simp [Node.get, hlk, Node.defaultNode, optKeys]
    | cons s' t' => simp [Node.get, hlk, Node.defaultNode, lookupChild, optKeys]
  | some x => simp [Node.get, hlk]

theorem add_weight_get_off (path : List String) :
    ∀ (n : Node) (delta : Int) (q : List String), ¬ q <+: path →
      (n.add_weight path delta).get q = n.get q := by
  induction path with
  | nil =>
    intro n delta q hq
    cases q with
    | nil => exact absurd ⟨[], rfl⟩ hq
    | cons s t => simp [Node.add_weight, Node.get]
  | cons a ps ih =>
    intro n delta q hq
    cases q with
    | nil => exact absurd ⟨a :: ps, rfl⟩ hq
    | cons s t =>
      by_cases hs : s = a
      · subst hs
        have ht : ¬ t <+: ps := by
          intro ⟨r, hr⟩
          exact hq ⟨r, by rw [List.cons_append, hr]⟩
        simp only [Node.add_weight, Node.get, Node.children_mk, lookup_setChild_self,
          Option.some_bind]
        rw [ih _ delta t ht]
        cases hlk : lookupChild n.children s with
        | none =>
          simp only [hlk, Option.getD_none, Option.none_bind]
          cases t with
          | nil => exact absurd ⟨ps, rfl⟩ ht
          | cons s' t' => simp [Node.defaultNode, Node.get, lookupChild]
        | some x => simp [hlk]
      · simp only [Node.add_weight, Node.get, Node.children_mk, lookup_setChild_ne _ _ _ _ hs]

theorem add_weight_get_on (path : List String) :
    ∀ (n : Node) (delta : Int) (q : List String), q <+: path →
      ∃ m, (n.add_weight path delta).get q = some m ∧
        m.weight = wrap64 ((optW (n.get q) : Int) + delta) ∧
        m.out = optOut (n.get q) ∧
        (q = path → m.children.map Prod.fst = optKeys (n.get q)) ∧
        ∀ a rest, path = q ++ a :: rest →
          m.children.map Prod.fst = insertKey (optKeys (n.get q)) a := by
  induction path with
  | nil =>
    intro n delta q hq
    obtain ⟨r, hr⟩ := hq
    have hqnil : q = [] := by
      cases q with
      | nil => rfl
      | cons s t => simp at hr
    subst hqnil
    refine ⟨_, rfl, ?_, ?_, ?_, ?_⟩
    · simp [Node.add_weight, Node.get, optW]
    · simp [Node.add_weight, Node.get, optOut]
    · intro _; simp [Node.add_weight, Node.get, optKeys]
    · intro a rest h; simp at h
  | cons a ps ih =>
    intro n delta q hq
    cases q with
    | nil =>
      refine ⟨_, rfl, ?_, ?_, ?_, ?_⟩
      · simp [Node.add_weight, Node.get, optW]
      · simp [Node.add_weight, Node.get, optOut]
      · intro h; simp at h
      · intro a' rest h
        simp only [List.nil_append] at h
        injection h with h1 h2
        subst h1; subst h2
        simp only [Node.add_weight, Node.get, Node.children_mk, Option.map_some,
          Option.getD_some, optKeys]
        exact keys_setChild n.children a _
    | cons s t =>
      obtain ⟨r, hr⟩ := hq
      rw [List.cons_append] at hr
      injection hr with h1 h2
      subst h1
      have ht : t <+: ps := ⟨r, h2⟩
      obtain ⟨m, hm, hw, ho, hkeq, hkne⟩ :=
        ih ((lookupChild n.children s).getD Node.defaultNode) delta t ht
      refine ⟨m, ?_, ?_, ?_, ?_, ?_⟩
      · simp only [Node.add_weight, Node.get, Node.children_mk, lookup_setChild_self,
          Option.some_bind]
        exact hm
      · rw [hw, optW_child]
      · rw [ho, optOut_child]
      · intro hqp
        injection hqp with h3 h4
        rw [hkeq h4, optKeys_child]
      · intro a' rest hpath
        injection hpath with h3 h4
        rw [hkne a' rest h4, optKeys_child]

/-! ### C5 -/

/-- C5: `add_weight(path, w)` adds `w` (wrapping mod 2^64) to the weight
of every node on the path from the root to the terminal node inclusive,
creates missing nodes with default state, and changes nothing else: off
the path every observation (weight, out flag, child-name list) is
unchanged, on the path the out flag is preserved (false for created
nodes) and the child-name list gains at most the next path component;
consequently on an empty engine `add_weight("osd.1",1)` then
`add_weight("osd.2",1)` yields `total_weight() = 2` and
`get_weight("osd.1") = 1`. -/
theorem c5_add_weight_frame :
    (∀ (c : Crush) (path : List String) (delta : Int) (q : List String),
      (¬ q <+: path →
        (c.add_weight path delta).weightAt? q = c.weightAt? q ∧
        (c.add_weight path delta).outAt? q = c.outAt? q ∧
        (c.add_weight path delta).namesAt? q = c.namesAt? q) ∧
      (q <+: path →
        (c.add_weight path delta).weightAt? q =
          some (wrap64 ((optW (c.root.get q) : Int) + delta)) ∧
        (c.add_weight path delta).outAt? q = some (optOut (c.root.get q)) ∧
        (q = path →
          (c.add_weight path delta).namesAt? q = some (optKeys (c.root.get q))) ∧
        ∀ a rest, path = q ++ a :: rest →
          (c.add_weight path delta).namesAt? q =
            some (insertKey (optKeys (c.root.get q)) a))) ∧
    Crush.total_weight
      ((emptyCrush.add_weight [("osd.1" : String)] 1).add_weight [("osd.2" : String)] 1) = 2 ∧
    Crush.get_weight
      ((emptyCrush.add_weight [("osd.1" : String)] 1).add_weight [("osd.2" : String)] 1)
      [("osd.1" : String)] = some 1 := by
  refine ⟨?_, by decide, by decide⟩
  intro c path delta q
  constructor
  · intro hq
    have h := add_weight_get_off path c.root delta q hq
    exact ⟨by simp [Crush.weightAt?, Crush.add_weight, h],
      by simp [Crush.outAt?, Crush.add_weight, h],
      by simp [Crush.namesAt?, Crush.add_weight, h]⟩
  · intro hq
    obtain ⟨m, hm, hw, ho, hkeq, hkne⟩ := add_weight_get_on path c.root delta q hq
    refine ⟨?_, ?_, ?_, ?_⟩
    · simp [Crush.weightAt?, Crush.add_weight, hm, hw]
    · simp [Crush.outAt?, Crush.add_weight, hm, ho]
    · intro hqp
      simp [Crush.namesAt?, Crush.add_weight, hm, hkeq hqp]
    · intro a rest hpath
      simp [Crush.namesAt?, Crush.add_weight, hm, hkne a rest hpath]

/-- Witness for C5: frame facts evaluated on a concrete engine. -/
theorem c5_witness :
    (crushOneOsd.add_weight [("osd.2" : String)] 1).weightAt? [("osd.1" : String)] =
      crushOneOsd.weightAt? [("osd.1" : String)] ∧
    (crushOneOsd.add_weight [("osd.2" : String)] 1).weightAt? [("osd.2" : String)] =
      some (wrap64 ((optW (crushOneOsd.root.get [("osd.2" : String)]) : Int) + 1)) :=
  ⟨((c5_add_weight_frame.1 crushOneOsd [("osd.2" : String)] 1
      [("osd.1" : String)]).1 (by decide)).1,
    ((c5_add_weight_frame.1 crushOneOsd [("osd.2" : String)] 1
      [("osd.2" : String)]).2 (by decide)).1⟩

/-! ### Order and well-formedness infrastructure -/

theorem charListLtB_irrefl : ∀ l, charListLtB l l = false := by
  intro l
  induction l with
  | nil => rfl
  | cons a as ih => simp [charListLtB, ih]

theorem charListLtB_asymm : ∀ a b, charListLtB a b = true → charListLtB b a = false := by
  intro a
  induction a with
  | nil => intro b h; cases b with
    | nil => rfl
    | cons x xs => rfl
  | cons x xs ih =>
    intro b h
    cases b with
    | nil => simp [charListLtB] at h
    | cons y ys =>
      simp only [charListLtB] at h ⊢
      by_cases h1 : x.toNat < y.toNat
      · have h2 : ¬ y.toNat < x.toNat := by omega
        have h3 : ¬ y.toNat = x.toNat := by omega
        simp [h2, h3]
      · by_cases h2 : x.toNat = y.toNat
        · rw [if_neg h1, if_pos h2] at h
          have h3 : ¬ y.toNat < x.toNat := by omega
          simp [h3, h2.symm, ih ys h]
        · rw [if_neg h1, if_neg h2] at h
          exact absurd h (by simp)

theorem charListLtB_trans :
    ∀ a b c, charListLtB a b = true → charListLtB b c = true → charListLtB a c = true := by
  intro a
  induction a with
  | nil =>
    intro b c hab hbc
    cases c with
    | nil =>
      cases b with
      | nil => exact hab
      | cons y ys => simp [charListLtB] at hbc
    | cons z zs => rfl
  | cons x xs ih =>
    intro b c hab hbc
    cases b with
    | nil => simp [charListLtB] at hab
    | cons y ys =>
      cases c with
      | nil => simp [charListLtB] at hbc
      | cons z zs =>
        simp only [charListLtB] at hab hbc ⊢
        by_cases h1 : x.toNat < y.toNat
        · by_cases h2 : y.toNat < z.toNat
          · simp [show x.toNat < z.toNat by omega]
          · by_cases h3 : y.toNat = z.toNat
            · simp [show x.toNat < z.toNat by omega]
            · rw [if_neg h2, if_neg h3] at hbc
              exact absurd hbc (by simp)
        · by_cases h4 : x.toNat = y.toNat
          · rw [if_neg h1, if_pos h4] at hab
            by_cases h2 : y.toNat < z.toNat
            · simp [show x.toNat < z.toNat by omega]
            · by_cases h3 : y.toNat = z.toNat
              · rw [if_neg h2, if_pos h3] at hbc
                have : ¬ x.toNat < z.toNat := by omega
                simp [this, show x.toNat = z.toNat by omega, ih ys zs hab hbc]
              · rw [if_neg h2, if_neg h3] at hbc
                exact absurd hbc (by simp)
          · rw [if_neg h1, if_neg h4] at hab
            exact absurd hab (by simp)

theorem strLtB_irrefl (s : String) : strLtB s s = false := charListLtB_irrefl s.data

theorem strLtB_asymm (s t : String) (h : strLtB s t = true) : strLtB t s = false :=
  charListLtB_asymm s.data t.data h

theorem strLtB_trans (s t u : String) (h1 : strLtB s t = true) (h2 : strLtB t u = true) :
    strLtB s u = true :=
  charListLtB_trans s.data t.data u.data h1 h2

/-- Strictly-sorted key list (the `BTreeMap` invariant). -/
def keysSortedB : List String → Bool
  | [] => true
  | [_] => true
  | a :: b :: t => strLtB a b && keysSortedB (b :: t)

mutual

/-- Well-formed node: children keys strictly sorted, recursively. -/
def Node.wfB : Node → Bool
  | .mk _ _ _ ch => keysSortedB (ch.map Prod.fst) && childrenWfB ch

/-- All children well-formed. -/
def childrenWfB : List (String × Node) → Bool
  | [] => true
  | (_, c) :: rest => Node.wfB c && childrenWfB rest

end

theorem keysSortedB_tail (k : String) (rest : List String)
    (h : keysSortedB (k :: rest) = true) : keysSortedB rest = true := by
  cases rest with
  | nil => rfl
  | cons b t => exact (Bool.and_eq_true_iff.mp h).2

theorem keysSortedB_head_lt (k : String) (rest : List String)
    (h : keysSortedB (k :: rest) = true) : ∀ s ∈ rest, strLtB k s = true := by
  induction rest generalizing k with
  | nil => intro s hs; simp at hs
  | cons b t ih =>
    intro s hs
    obtain ⟨h1, h2⟩ := Bool.and_eq_true_iff.mp h
    rcases List.mem_cons.mp hs with rfl | hs2
    · exact h1
    · exact strLtB_trans _ _ _ h1 (ih b h2 s hs2)

theorem lookup_mem_keys (l : List (String × Node)) (s : String) (x : Node)
    (h : lookupChild l s = some x) : s ∈ l.map Prod.fst := by
  induction l with
  | nil => simp [lookupChild] at h
  | cons hd tl ih =>
    obtain ⟨k, v⟩ := hd
    simp only [lookupChild] at h
    by_cases hs : s = k
    · simp [hs]
    · rw [if_neg hs] at h
      simp [ih h]

theorem keys_setChild_mem (l : List (String × Node)) (s : String) (c x : Node)
    (hsort : keysSortedB (l.map Prod.fst) = true)
    (h : lookupChild l s = some x) :
    (setChild l s c).map Prod.fst = l.map Prod.fst := by
  induction l with
  | nil => simp [lookupChild] at h
  | cons hd tl ih =>
    obtain ⟨k, v⟩ := hd
    simp only [lookupChild] at h
    by_cases hs : s = k
    · subst hs
      simp [setChild, strLtB_irrefl]
    · rw [if_neg hs] at h
      have hmem : s ∈ tl.map Prod.fst := lookup_mem_keys tl s x h
      have hks : strLtB k s = true := by
        have := keysSortedB_head_lt k (tl.map Prod.fst) (by simpa using hsort)
        exact this s hmem
      have hns : strLtB s k = false := strLtB_asymm _ _ hks
      simp only [setChild, List.map_cons, hns, Bool.false_eq_true, if_false, if_neg hs]
      rw [ih (keysSortedB_tail _ _ (by simpa using hsort)) h]

theorem childrenWfB_lookup (l : List (String × Node)) (s : String) (c : Node)
    (hwf : childrenWfB l = true) (h : lookupChild l s = some c) :
    Node.wfB c = true := by
  induction l with
  | nil => simp [lookupChild] at h
  | cons hd tl ih =>
    obtain ⟨k, v⟩ := hd
    simp only [lookupChild] at h
    obtain ⟨h1, h2⟩ := Bool.and_eq_true_iff.mp hwf
    by_cases hs : s = k
    · rw [if_pos hs] at h
      cases h
      exact h1
    · rw [if_neg hs] at h
      exact ih h2 h

/-! ### C10 -/

theorem set_inout_get (path : List String) :
    ∀ (n : Node) (b : Bool) (n' : Node), Node.wfB n = true →
    n.set_inout path b = some n' →
    ((n'.get path).map Node.out = some b) ∧
    (∀ q, (n'.get q).map Node.weight = (n.get q).map Node.weight) ∧
    (∀ q, (n'.get q).map (fun x => x.children.map Prod.fst) =
      (n.get q).map (fun x => x.children.map Prod.fst)) ∧
    (∀ q, q ≠ path → (n'.get q).map Node.out = (n.get q).map Node.out) := by
  induction path with
  | nil =>
    intro n b n' hwf h
    obtain ⟨w, o, t, ch⟩ := n
    simp only [Node.set_inout, Option.some.injEq] at h
    subst h
    refine ⟨rfl, ?_, ?_, ?_⟩
    · intro q; cases q with
      | nil => rfl
      | cons s t' => rfl
    · intro q; cases q with
      | nil => rfl
      | cons s t' => rfl
    · intro q hq
      cases q with
      | nil => exact absurd rfl hq
      | cons s t' => rfl
  | cons a rest ih =>
    intro n b n' hwf h
    obtain ⟨w, o, t, ch⟩ := n
    simp only [Node.set_inout] at h
    cases hlk : lookupChild ch a with
    | none => rw [hlk] at h; simp at h
    | some c =>
      rw [hlk] at h
      simp only [Option.some_bind] at h
      cases hsi : c.set_inout rest b with
      | none => rw [hsi] at h; simp at h
      | some c' =>
        rw [hsi] at h
        rw [Option.map_some'] at h
        have h2 := Option.some.inj h
        subst h2
        obtain ⟨hsort, hcwf⟩ := Bool.and_eq_true_iff.mp hwf
        have hcw : Node.wfB c = true := childrenWfB_lookup ch a c hcwf hlk
        obtain ⟨io, iw, ik, ioff⟩ := ih c b c' hcw hsi
        refine ⟨?_, ?_, ?_, ?_⟩
        · simp only [Node.get, Node.children_mk, lookup_setChild_self, Option.some_bind]
          exact io
        · intro q
          cases q with
          | nil => rfl
          | cons s t' =>
            by_cases hs : s = a
            · subst hs
              simp only [Node.get, Node.children_mk, lookup_setChild_self,
                Option.some_bind, hlk]
              exact iw t'
            · simp only [Node.get, Node.children_mk, lookup_setChild_ne _ _ _ _ hs]
        · intro q
          cases q with
          | nil =>
            simp only [Node.get, Option.map_some', Node.children_mk]
            rw [keys_setChild_mem ch a c' c (by simpa using hsort) hlk]
          | cons s t' =>
            by_cases hs : s = a
            · subst hs
              simp only [Node.get, Node.children_mk, lookup_setChild_self,
                Option.some_bind, hlk]
              exact ik t'
            · simp only [Node.get, Node.children_mk, lookup_setChild_ne _ _ _ _ hs]
        · intro q hq
          cases q with
          | nil => rfl
          | cons s t' =>
            by_cases hs : s = a
            · subst hs
              have ht : t' ≠ rest := fun he => hq (by rw [he])
              simp only [Node.get, Node.children_mk, lookup_setChild_self,
                Option.some_bind, hlk]
              exact ioff t' ht
            · simp only [Node.get, Node.children_mk, lookup_setChild_ne _ _ _ _ hs]

/-- C10: on a well-formed engine, `set_inout(path, b)` on a resolvable
path changes only the out flag of the node at `path`: every node's
weight and child-name list, the out flag of every other node, and
`total_weight()` are unchanged. -/
theorem c10_set_inout_frame (c : Crush) (path : List String) (b : Bool) (c' : Crush)
    (hwf : Node.wfB c.root = true) (h : c.set_inout path b = some c') :
    c'.outAt? path = some b ∧
    (∀ q, q ≠ path → c'.outAt? q = c.outAt? q) ∧
    (∀ q, c'.weightAt? q = c.weightAt? q) ∧
    (∀ q, c'.namesAt? q = c.namesAt? q) ∧
    c'.total_weight = c.total_weight := by
  unfold Crush.set_inout at h
  cases hr : c.root.set_inout path b with
  | none => rw [hr] at h; simp at h
  | some r =>
    rw [hr] at h
    rw [Option.map_some'] at h
    have h2 := Option.some.inj h
    subst h2
    obtain ⟨io, iw, ik, ioff⟩ := set_inout_get path c.root b r hwf hr
    refine ⟨io, fun q hq => ioff q hq, fun q => iw q, fun q => ik q, ?_⟩
    have h0 := iw []
    simp only [Node.get, Option.map_some'] at h0
    exact Option.some.inj h0

/-- Witness for C10 on a concrete engine. -/
theorem c10_witness :
    ((crushOneOsd.set_inout [("osd.1" : String)] true).getD emptyCrush).outAt?
      [("osd.1" : String)] = some true ∧
    ((crushOneOsd.set_inout [("osd.1" : String)] true).getD emptyCrush).total_weight =
      crushOneOsd.total_weight := by
  have h : crushOneOsd.set_inout [("osd.1" : String)] true =
      some ((crushOneOsd.set_inout [("osd.1" : String)] true).getD emptyCrush) := rfl
  have hw : Node.wfB crushOneOsd.root = true := by decide
  obtain ⟨h1, _, _, _, h5⟩ := c10_set_inout_frame crushOneOsd [("osd.1" : String)] true
    ((crushOneOsd.set_inout [("osd.1" : String)] true).getD emptyCrush) hw h
  exact ⟨h1, h5⟩

/-! ### C2 -/

theorem minByKeyFirst_cons_isSome (a : String × Nat) (t : List (String × Nat)) :
    (minByKeyFirst (a :: t)).isSome = true := by
  simp only [minByKeyFirst]
  cases minByKeyFirst t with
  | none => rfl
  | some y => by_cases h : a.2 ≤ y.2 <;> simp [h]

theorem minByKeyFirst_mem_min :
    ∀ (l : List (String × Nat)) x, minByKeyFirst l = some x →
      x ∈ l ∧ ∀ y ∈ l, x.2 ≤ y.2 := by
  intro l
  induction l with
  | nil => intro x h; simp [minByKeyFirst] at h
  | cons z rest ih =>
    intro x h
    cases hm : minByKeyFirst rest with
    | none =>
      simp only [minByKeyFirst, hm] at h
      cases h
      have hrest : rest = [] := by
        cases rest with
        | nil => rfl
        | cons a t =>
          have := minByKeyFirst_cons_isSome a t
          rw [hm] at this
          cases this
      subst hrest
      refine ⟨List.mem_cons_self .., ?_⟩
      intro y hy
      rcases List.mem_cons.mp hy with rfl | hy2
      · exact Nat.le_refl _
      · simp at hy2
    | some y0 =>
      simp only [minByKeyFirst, hm] at h
      obtain ⟨hy0, hmin⟩ := ih y0 hm
      by_cases hle : z.2 ≤ y0.2
      · rw [if_pos hle] at h
        cases h
        refine ⟨List.mem_cons_self .., ?_⟩
        intro y hy
        rcases List.mem_cons.mp hy with rfl | hy2
        · exact Nat.le_refl _
        · exact Nat.le_trans hle (hmin y hy2)
      · rw [if_neg hle] at h
        cases h
        refine ⟨List.mem_cons_of_mem _ hy0, ?_⟩
        intro y hy
        rcases List.mem_cons.mp hy with rfl | hy2
        · omega
        · exact hmin y hy2

theorem minByKeyFirst_tie :
    ∀ (l : List (String × Nat)) x,
      List.Pairwise (fun a b : String × Nat => strLtB a.1 b.1 = true) l →
      minByKeyFirst l = some x →
      ∀ y ∈ l, y.2 = x.2 → y.1 = x.1 ∨ strLtB x.1 y.1 = true := by
  intro l
  induction l with
  | nil => intro x _ h; simp [minByKeyFirst] at h
  | cons z rest ih =>
    intro x hpw h y hy hyx
    obtain ⟨hz, hpw2⟩ := List.pairwise_cons.mp hpw
    cases hm : minByKeyFirst rest with
    | none =>
      simp only [minByKeyFirst, hm] at h
      cases h
      rcases List.mem_cons.mp hy with rfl | hy2
      · exact Or.inl rfl
      · exact Or.inr (hz y hy2)
    | some y0 =>
      simp only [minByKeyFirst, hm] at h
      by_cases hle : z.2 ≤ y0.2
      · rw [if_pos hle] at h
        cases h
        rcases List.mem_cons.mp hy with rfl | hy2
        · exact Or.inl rfl
        · exact Or.inr (hz y hy2)
      · rw [if_neg hle] at h
        cases h
        rcases List.mem_cons.mp hy with rfl | hy2
        · obtain ⟨hy0m, hmin⟩ := minByKeyFirst_mem_min rest x hm
          omega
        · exact ih x hpw2 hm y hy2 hyx

theorem keysSortedB_pairwise :
    ∀ l, keysSortedB l = true → List.Pairwise (fun a b => strLtB a b = true) l := by
  intro l
  induction l with
  | nil => intro _; exact List.Pairwise.nil
  | cons k rest ih =>
    intro h
    exact List.pairwise_cons.mpr
      ⟨keysSortedB_head_lt k rest h, ih (keysSortedB_tail k rest h)⟩

theorem lookup_of_mem_sorted (l : List (String × Node)) (k : String) (v : Node)
    (hsort : keysSortedB (l.map Prod.fst) = true) (hmem : (k, v) ∈ l) :
    lookupChild l k = some v := by
  induction l with
  | nil => simp at hmem
  | cons hd tl ih =>
    obtain ⟨k0, v0⟩ := hd
    rcases List.mem_cons.mp hmem with heq | hmem2
    · obtain ⟨rfl, rfl⟩ := Prod.mk.injEq .. ▸ heq
      simp [lookupChild]
    · have hk : k ∈ tl.map Prod.fst := by
        exact List.mem_map_of_mem _ hmem2
      have hlt : strLtB k0 k = true :=
        keysSortedB_head_lt k0 (tl.map Prod.fst) (by simpa using hsort) k hk
      have hne : k ≠ k0 := by
        rintro rfl
        rw [strLtB_irrefl] at hlt
        cases hlt
      simp only [lookupChild, if_neg hne]
      exact ih (keysSortedB_tail _ _ (by simpa using hsort)) hmem2

/-- A node whose only child is out-marked, used to refute the spec's
description of `choose`. -/
def nodeOutChild : Node :=
  .mk 1 false ("") [(("a" : String), .mk 1 true ("") [])]

/-- C2 counterexample: `choose` does not restrict attention to children
that are not out: on a node whose only child `a` is out-marked (weight
1), the implementation returns `a`, while the spec's filtered version
(`chooseSpec`) has no candidate at all and cannot return anything. -/
theorem c2_counterexample :
    Node.choose hfZero tblOne nodeOutChild 0 0 = some ("a" : String) ∧
    (lookupChild nodeOutChild.children ("a" : String)).map Node.out = some true ∧
    Node.chooseSpec hfZero tblOne nodeOutChild 0 0 = none :=
  ⟨by decide, by decide, by decide⟩

/-- C2 (amended): for a node with sorted children, at least one child,
and no zero-weight child, `choose(key, index)` considers all children
(ignoring `out`, which is enforced later by `select`), computes for each
the draw `w = LN_TABLE[hash(name,key,index) & 0xFFFF] / weight`, and
returns the name of a child whose draw is minimal, breaking ties in
favor of the earliest — lexicographically smallest — name.  (A node
with a zero-weight child makes `choose` panic by division by zero, and
`out` children are considered like any other.) -/
theorem c2_choose_min (hf : String → Nat → Nat → Nat) (tbl : Nat → Nat)
    (n : Node) (key index : Nat)
    (hne : n.children ≠ [])
    (hw : ∀ p ∈ n.children, p.2.weight ≠ 0)
    (hsort : keysSortedB (n.children.map Prod.fst) = true) :
    ∃ name c, Node.choose hf tbl n key index = some name ∧
      lookupChild n.children name = some c ∧
      (∀ p ∈ n.children,
        straw hf tbl key index name c ≤ straw hf tbl key index p.1 p.2) ∧
      ∀ p ∈ n.children,
        straw hf tbl key index p.1 p.2 = straw hf tbl key index name c →
        p.1 = name ∨ strLtB name p.1 = true := by
  have hany : (n.children.any fun p => p.2.weight == 0) = false := by
    rw [List.any_eq_false]
    intro p hp
    simpa using hw p hp
  obtain ⟨q, qs, hql⟩ := List.exists_cons_of_ne_nil hne
  have hmapped : ∃ x, minByKeyFirst (n.children.map fun p =>
      (p.1, straw hf tbl key index p.1 p.2)) = some x := by
    rw [hql]
    simp only [List.map_cons]
    exact Option.isSome_iff_exists.mp (minByKeyFirst_cons_isSome _ _)
  obtain ⟨x, hx⟩ := hmapped
  obtain ⟨hxmem, hxmin⟩ := minByKeyFirst_mem_min _ x hx
  obtain ⟨p0, hp0, hp0x⟩ := List.mem_map.mp hxmem
  have hxfst : x.1 = p0.1 := by rw [← hp0x]
  have hxsnd : x.2 = straw hf tbl key index p0.1 p0.2 := by rw [← hp0x]
  refine ⟨x.1, p0.2, ?_, ?_, ?_, ?_⟩
  · simp only [Node.choose, hany, Bool.false_eq_true, if_false, hx, Option.map_some']
  · rw [hxfst]
    exact lookup_of_mem_sorted n.children p0.1 p0.2 hsort (by simpa using hp0)
  · intro p hp
    have h5 := hxmin (p.1, straw hf tbl key index p.1 p.2)
      (List.mem_map.mpr ⟨p, hp, rfl⟩)
    rw [hxsnd] at h5
    rw [hxfst]
    simpa using h5
  · intro p hp hpeq
    have hpair : List.Pairwise (fun a b : String × Nat => strLtB a.1 b.1 = true)
        (n.children.map fun p => (p.1, straw hf tbl key index p.1 p.2)) := by
      rw [List.pairwise_map]
      have := keysSortedB_pairwise _ hsort
      rw [List.pairwise_map] at this
      exact this
    rw [hxfst] at hpeq
    have h6 := minByKeyFirst_tie _ x hpair hx (p.1, straw hf tbl key index p.1 p.2)
      (List.mem_map.mpr ⟨p, hp, rfl⟩)
      (by rw [hxsnd]; exact hpeq)
    rw [hxfst] at h6 ⊢
    simpa using h6

/-- A two-child node for the C2 witness. -/
def nodeTwoKids : Node :=
  .mk 3 false ("") [(("a" : String), .mk 1 false ("") []),
    (("b" : String), .mk 2 false ("") [])]

/-- Witness for the amended C2 at a concrete two-child node. -/
theorem c2_witness :
    ∃ name c, Node.choose hfZero tblOne nodeTwoKids 0 0 = some name ∧
      lookupChild nodeTwoKids.children name = some c ∧
      (∀ p ∈ nodeTwoKids.children,
        straw hfZero tblOne 0 0 name c ≤ straw hfZero tblOne 0 0 p.1 p.2) ∧
      ∀ p ∈ nodeTwoKids.children,
        straw hfZero tblOne 0 0 p.1 p.2 = straw hfZero tblOne 0 0 name c →
        p.1 = name ∨ strLtB name p.1 = true :=
  c2_choose_min hfZero tblOne nodeTwoKids 0 0 (by simp [nodeTwoKids]) (by decide) (by decide)

/-! ### C7 -/

theorem lookup_mem (l : List (String × Node)) (s : String) (c : Node)
    (h : lookupChild l s = some c) : (s, c) ∈ l := by
  induction l with
  | nil => simp [lookupChild] at h
  | cons hd tl ih =>
    obtain ⟨k, v⟩ := hd
    simp only [lookupChild] at h
    by_cases hs : s = k
    · rw [if_pos hs] at h
      cases h
      subst hs
      exact List.mem_cons_self ..
    · rw [if_neg hs] at h
      exact List.mem_cons_of_mem _ (ih h)

theorem lookup_isSome_of_mem_keys (l : List (String × Node)) (s : String)
    (h : s ∈ l.map Prod.fst) : ∃ c, lookupChild l s = some c := by
  induction l with
  | nil => simp at h
  | cons hd tl ih =>
    obtain ⟨k, v⟩ := hd
    by_cases hs : s = k
    · exact ⟨v, by simp [lookupChild, hs]⟩
    · have h2 : s = k ∨ s ∈ tl.map Prod.fst := by
        rw [List.map_cons, List.mem_cons] at h
        exact h
      rcases h2 with rfl | h1
      · exact absurd rfl hs
      · obtain ⟨c, hc⟩ := ih h1
        exact ⟨c, by simp [lookupChild, hs, hc]⟩

theorem choose_some_of (hf : String → Nat → Nat → Nat) (tbl : Nat → Nat)
    (n : Node) (key index : Nat) (hne : n.children ≠ [])
    (hw : ∀ p ∈ n.children, p.2.weight ≠ 0) :
    ∃ name c, Node.choose hf tbl n key index = some name ∧
      lookupChild n.children name = some c := by
  have hany : (n.children.any fun p => p.2.weight == 0) = false := by
    rw [List.any_eq_false]
    intro p hp
    simpa using hw p hp
  obtain ⟨q, qs, hql⟩ := List.exists_cons_of_ne_nil hne
  have hmapped : ∃ x, minByKeyFirst (n.children.map fun p =>
      (p.1, straw hf tbl key index p.1 p.2)) = some x := by
    rw [hql]
    simp only [List.map_cons]
    exact Option.isSome_iff_exists.mp (minByKeyFirst_cons_isSome _ _)
  obtain ⟨x, hx⟩ := hmapped
  obtain ⟨hxmem, _⟩ := minByKeyFirst_mem_min _ x hx
  obtain ⟨p0, hp0, hp0x⟩ := List.mem_map.mp hxmem
  have hxfst : x.1 = p0.1 := by rw [← hp0x]
  have hkeys : x.1 ∈ n.children.map Prod.fst := by
    rw [hxfst]
    exact List.mem_map_of_mem _ hp0
  obtain ⟨c, hc⟩ := lookup_isSome_of_mem_keys n.children x.1 hkeys
  exact ⟨x.1, c, by
    simp only [Node.choose, hany, Bool.false_eq_true, if_false, hx, Option.map_some'], hc⟩

/-- C7 (amended): when the start node has at least one child, every
child has positive weight and none is out, `select(pgid, 1, start_path)`
returns after a single `choose` step (fuel 1 suffices). -/
theorem c7_select_terminates (hf : String → Nat → Nat → Nat) (tbl : Nat → Nat)
    (c : Crush) (pgid : Nat) (sp : List String) (start : Node)
    (hg : c.root.get sp = some start)
    (hne : start.children ≠ [])
    (hok : ∀ p ∈ start.children, p.2.weight ≠ 0 ∧ p.2.out = false) :
    ∃ name, Crush.select hf tbl c pgid 1 sp 1 = some [[name]] := by
  obtain ⟨name, ch, hch, hlk⟩ :=
    choose_some_of hf tbl start pgid 0 hne fun p hp => (hok p hp).1
  have hout : ch.out = false := (hok (name, ch) (lookup_mem _ _ _ hlk)).2
  refine ⟨name, ?_⟩
  unfold Crush.select
  rw [hg]
  simp only [selectOuter, selectOne, Nat.add_zero, hch, List.nil_append, hlk]
  have hcond : ch.out = false ∧ ([name] : List String) ∉ ([] : List (List String)) :=
    ⟨hout, by simp⟩
  rw [if_pos hcond]

/-- An engine whose single top-level child `osd.1` is out-marked. -/
def crushOutOsd : Crush :=
  ((emptyCrush.add_weight [("osd.1" : String)] 1).set_inout
    [("osd.1" : String)] true).getD emptyCrush

/-- All fuels fail: the retry loop of `select` never exits on this
engine (the only candidate is always rejected). -/
def selectDivergesOn (c : Crush) (pgid num : Nat) (sp : List String) : Prop :=
  ∀ fuel, Crush.select hfZero tblOne c pgid num sp fuel = none

theorem selectOne_crushOutOsd_none :
    ∀ fuel fc lf, selectOne hfZero tblOne crushOutOsd.root 0 0 []
      fuel crushOutOsd.root fc lf [] = none := by
  intro fuel
  induction fuel with
  | zero => intro fc lf; rfl
  | succ fuel ih =>
    intro fc lf
    have hch : Node.choose hfZero tblOne crushOutOsd.root 0 (0 + fc) =
        some ("osd.1" : String) := rfl
    have hlk : lookupChild crushOutOsd.root.children ("osd.1" : String) =
        some (Node.mk 1 true ("") []) := rfl
    simp only [selectOne, hch, List.nil_append, hlk, Node.out_mk]
    rw [if_neg (by simp)]
    split
    · exact ih (fc + 1) 0
    · simpa using ih (fc + 1) (lf + 1)

/-- C7 counterexample: with the single leaf marked out, `select` exits
for no fuel bound at all — the loop runs forever in the source. -/
theorem c7_counterexample : selectDivergesOn crushOutOsd 0 1 [] := by
  intro fuel
  unfold Crush.select
  have hg : crushOutOsd.root.get [] = some crushOutOsd.root := rfl
  rw [hg]
  simp only [selectOuter, selectOne_crushOutOsd_none]

/-- Witness for the amended C7. -/
theorem c7_witness :
    ∃ name, Crush.select hfZero tblOne crushOneOsd 0 1 [] 1 = some [[name]] :=
  c7_select_terminates hfZero tblOne crushOneOsd 0 [] crushOneOsd.root rfl
    (by simp [crushOneOsd, emptyCrush, Node.defaultNode, Crush.add_weight,
      Node.add_weight, setChild])
    (by decide)

/-! ### C8 -/

theorem land_sub1_lt (n : Nat) (h : ¬ n &&& sub1u32 n = 0) : n &&& sub1u32 n < n := by
  have h1 : n &&& sub1u32 n ≤ sub1u32 n := Nat.and_le_right
  have hn : n ≠ 0 := by
    rintro rfl
    exact h (Nat.zero_and _)
  by_cases h2 : n < 2 ^ 32
  · have hs : sub1u32 n = n - 1 := by unfold sub1u32; omega
    omega
  · have h3 : sub1u32 n < 2 ^ 32 := Nat.mod_lt _ (by norm_num)
    omega

/-- Fuel-bounded version of `findLoop`; used only to evaluate `findLoop`
at concrete arguments (the loop itself is defined by well-founded
recursion and does not reduce definitionally). -/
def findLoopF : Nat → Nat → Nat
  | 0, n => n
  | fuel + 1, n => if n &&& sub1u32 n = 0 then n else findLoopF fuel (n &&& sub1u32 n)

theorem findLoopF_eq : ∀ fuel n, n ≤ fuel → findLoopF fuel n = findLoop n := by
  intro fuel
  induction fuel with
  | zero =>
    intro n hn
    have h0 : n = 0 := by omega
    subst h0
    rw [findLoop, dif_pos (Nat.zero_and _)]
    rfl
  | succ fuel ih =>
    intro n hn
    rw [findLoop]
    by_cases h : n &&& sub1u32 n = 0
    · simp [findLoopF, h]
    · have hlt := land_sub1_lt n h
      simp only [findLoopF, if_neg h]
      rw [dif_neg h]
      exact ih _ (by omega)

theorem fnp2_eval (a : Nat) :
    find_next_power_of_2 a = (findLoopF (sub1u32 a) (sub1u32 a)) <<< 1 % 2 ^ 32 := by
  unfold find_next_power_of_2
  rw [findLoopF_eq _ _ (Nat.le_refl _)]

theorem land_self_aux (n : Nat) : n &&& n = n := by
  apply Nat.eq_of_testBit_eq
  intro i
  rw [Nat.testBit_land, Bool.and_self]

theorem land_pred_pow : ∀ (j o : Nat), o % 2 = 1 →
    (2 ^ j * o) &&& (2 ^ j * o - 1) = 2 ^ j * o - 2 ^ j := by
  intro j
  induction j with
  | zero =>
    intro o ho
    simp only [pow_zero, one_mul]
    have h2 : o = 2 * (o / 2) + 1 := by omega
    rw [h2]
    have h3 : 2 * (o / 2) + 1 - 1 = 2 * (o / 2) := by omega
    rw [h3]
    have hb : (2 * (o / 2) + 1) &&& (2 * (o / 2)) =
        Nat.bit true (o / 2) &&& Nat.bit false (o / 2) := by
      simp [Nat.bit_val]
    rw [hb, Nat.land_bit]
    simp [Nat.bit_val, land_self_aux]
  | succ j ih =>
    intro o ho
    have hpos : 0 < 2 ^ j * o := Nat.mul_pos (pow_pos (by norm_num) j) (by omega)
    have hkey : 2 ^ (j + 1) * o = 2 * (2 ^ j * o) := by ring
    rw [hkey]
    have h1 : 2 * (2 ^ j * o) - 1 = 2 * (2 ^ j * o - 1) + 1 := by omega
    rw [h1]
    have hb : (2 * (2 ^ j * o)) &&& (2 * (2 ^ j * o - 1) + 1) =
        Nat.bit false (2 ^ j * o) &&& Nat.bit true (2 ^ j * o - 1) := by
      simp [Nat.bit_val]
    rw [hb, Nat.land_bit]
    rw [ih o ho]
    simp only [Bool.false_and, Nat.bit_val, Bool.toNat_false, Nat.add_zero]
    have hp : 2 ^ (j + 1) = 2 * 2 ^ j := by ring
    have hle : 2 ^ j ≤ 2 ^ j * o := Nat.le_mul_of_pos_right _ (by omega)
    omega

theorem findLoop_pow : ∀ m, m ≠ 0 → m < 2 ^ 32 → findLoop m = 2 ^ Nat.log 2 m := by
  intro m
  induction m using Nat.strong_induction_on with
  | _ m ih =>
    intro hm hlt
    obtain ⟨j, o, hod, rfl⟩ := Nat.exists_eq_pow_mul_and_not_dvd hm 2 (by norm_num)
    have ho1 : o % 2 = 1 := by
      rcases Nat.mod_two_eq_zero_or_one o with h | h
      · exact absurd (Nat.dvd_iff_mod_eq_zero.mpr h) hod
      · exact h
    have hopos : 0 < o := by omega
    have hpow : 0 < 2 ^ j := pow_pos (by norm_num) j
    have hmpos : 0 < 2 ^ j * o := Nat.mul_pos hpow hopos
    have hsub : sub1u32 (2 ^ j * o) = 2 ^ j * o - 1 := by unfold sub1u32; omega
    have hland : (2 ^ j * o) &&& sub1u32 (2 ^ j * o) = 2 ^ j * o - 2 ^ j := by
      rw [hsub]
      exact land_pred_pow j o ho1
    rw [findLoop]
    by_cases hz : (2 ^ j * o) &&& sub1u32 (2 ^ j * o) = 0
    · rw [dif_pos hz]
      rw [hland] at hz
      have hle : 2 ^ j * o ≤ 2 ^ j * 1 := by omega
      have ho : o = 1 := by
        have := Nat.le_of_mul_le_mul_left hle hpow
        omega
      subst ho
      rw [Nat.mul_one, Nat.log_pow (by norm_num)]
    · rw [dif_neg hz]
      rw [hland] at hz ⊢
      have hole : 3 ≤ o := by
        by_contra hcon
        have ho : o = 1 := by omega
        subst ho
        simp at hz
      have hj2 : 2 ^ j ≤ 2 ^ j * o := Nat.le_mul_of_pos_right _ hopos
      have hjL : j ≤ Nat.log 2 (2 ^ j * o) :=
        (Nat.pow_le_iff_le_log (by norm_num) hm).mp hj2
      have hLle : 2 ^ Nat.log 2 (2 ^ j * o) ≤ 2 ^ j * o := Nat.pow_log_le_self 2 hm
      have hLlt : 2 ^ j * o < 2 ^ (Nat.log 2 (2 ^ j * o) + 1) :=
        Nat.lt_pow_succ_log_self (by norm_num) _
      have hmulsub : 2 ^ j * (o - 1) = 2 ^ j * o - 2 ^ j := by
        obtain ⟨o', rfl⟩ : ∃ o', o = o' + 1 := ⟨o - 1, by omega⟩
        simp only [Nat.add_sub_cancel]
        have hx : 2 ^ j * (o' + 1) = 2 ^ j * o' + 2 ^ j := by ring
        omega
      have hge : 2 ^ Nat.log 2 (2 ^ j * o) ≤ 2 ^ j * o - 2 ^ j := by
        by_contra hcon
        push_neg at hcon
        have hd : 2 ^ Nat.log 2 (2 ^ j * o) =
            2 ^ j * 2 ^ (Nat.log 2 (2 ^ j * o) - j) := by
          rw [← pow_add, Nat.add_sub_cancel' hjL]
        have h1 : 2 ^ (Nat.log 2 (2 ^ j * o) - j) ≤ o := by
          rw [hd] at hLle
          exact Nat.le_of_mul_le_mul_left hLle hpow
        have h2 : o - 1 < 2 ^ (Nat.log 2 (2 ^ j * o) - j) := by
          rw [hd] at hcon
          rw [← hmulsub] at hcon
          exact Nat.lt_of_mul_lt_mul_left hcon
        have ho2 : o = 2 ^ (Nat.log 2 (2 ^ j * o) - j) := by omega
        rcases Nat.eq_zero_or_pos (Nat.log 2 (2 ^ j * o) - j) with hLj | hLj
        · rw [hLj, pow_zero] at ho2
          omega
        · have heven : o % 2 = 0 := by
            rw [ho2]
            have hk : Nat.log 2 (2 ^ j * o) - j =
                (Nat.log 2 (2 ^ j * o) - j - 1) + 1 := by omega
            rw [hk, pow_succ]
            omega
          omega
      have hposL : 0 < 2 ^ Nat.log 2 (2 ^ j * o) := pow_pos (by norm_num) _
      have hlog2 : Nat.log 2 (2 ^ j * o - 2 ^ j) = Nat.log 2 (2 ^ j * o) :=
        Nat.log_eq_of_pow_le_of_lt_pow hge (by omega)
      rw [ih _ (by omega) hz (by omega), hlog2]

/-- A power of two. -/
def isPow2 (p : Nat) : Prop := ∃ k, p = 2 ^ k

/-- Rack name `rack.i`. -/
def rackN (r : Nat) : String := ("rack." : String) ++ toString r

/-- Host name `host.i`. -/
def hostN (h : Nat) : String := ("host." : String) ++ toString h

/-- Osd name `osd.i`. -/
def osdN (o : Nat) : String := ("osd." : String) ++ toString o

/-- The 5-rack × 5-host × 8-osd cluster of the spec's concrete
recommended-pgs scenario (200 leaves). -/
def crushDatacenter : Crush :=
  (List.range 5).foldl (fun c r =>
    (List.range 5).foldl (fun c h =>
      (List.range 8).foldl (fun c o =>
        c.add_weight [rackN (r + 1), hostN (h + 1), osdN (o + 1)] 1) c) c) emptyCrush

set_option maxRecDepth 100000 in
/-- C8 (amended): `get_recommended_pgs(replicas)` is
`next_power_of_two(osd_count · 100 / replicas)` exactly as implemented;
for arguments `a` with `2 ≤ a ≤ 2^31`, `next_power_of_two` returns the
smallest power of two ≥ `a`; on the 5×5×8 datacenter cluster the result
is 8192.  (At arguments 0 and 1 the implementation returns 0, which is
not a power of two — see the counterexample.) -/
theorem c8_recommended_pgs :
    (∀ (c : Crush) (replicas : Nat), replicas ≠ 0 →
      Crush.get_recommended_pgs c replicas =
        some (find_next_power_of_2 (c.root.get_osds * 100 % 2 ^ 32 / replicas))) ∧
    (∀ a, 2 ≤ a → a ≤ 2 ^ 31 →
      IsLeast {p | isPow2 p ∧ a ≤ p} (find_next_power_of_2 a)) ∧
    Crush.get_recommended_pgs crushDatacenter 3 = some 8192 := by
  refine ⟨?_, ?_, ?_⟩
  · intro c replicas hr
    unfold Crush.get_recommended_pgs
    rw [if_neg hr]
  · intro a h2 h31
    have h3132 : (2 : Nat) ^ 31 < 2 ^ 32 := by norm_num
    have ham : sub1u32 a = a - 1 := by unfold sub1u32; omega
    have hm0 : a - 1 ≠ 0 := by omega
    have hmlt : a - 1 < 2 ^ 32 := by omega
    have hfl : findLoop (a - 1) = 2 ^ Nat.log 2 (a - 1) := findLoop_pow _ hm0 hmlt
    have hLle : 2 ^ Nat.log 2 (a - 1) ≤ a - 1 := Nat.pow_log_le_self 2 hm0
    have hLlt : a - 1 < 2 ^ (Nat.log 2 (a - 1) + 1) :=
      Nat.lt_pow_succ_log_self (by norm_num) _
    have hA31 : a - 1 < 2 ^ 31 := by omega
    have hL31 : Nat.log 2 (a - 1) < 31 := Nat.log_lt_of_lt_pow hm0 hA31
    unfold find_next_power_of_2
    rw [ham, hfl, Nat.shiftLeft_eq]
    have hpow : 2 ^ Nat.log 2 (a - 1) * 2 ^ 1 = 2 ^ (Nat.log 2 (a - 1) + 1) := by
      rw [← pow_add]
    rw [hpow]
    have hmod : 2 ^ (Nat.log 2 (a - 1) + 1) % 2 ^ 32 = 2 ^ (Nat.log 2 (a - 1) + 1) :=
      Nat.mod_eq_of_lt (Nat.pow_lt_pow_right (by norm_num) (by omega))
    rw [hmod]
    constructor
    · exact ⟨⟨Nat.log 2 (a - 1) + 1, rfl⟩, by omega⟩
    · rintro p ⟨⟨k, rfl⟩, hak⟩
      have h1 : 2 ^ Nat.log 2 (a - 1) < 2 ^ k := by omega
      have h2k : Nat.log 2 (a - 1) < k := (Nat.pow_lt_pow_iff_right (by norm_num)).mp h1
      exact Nat.pow_le_pow_right (by norm_num) (by omega)
  · have hosd : crushDatacenter.root.get_osds = 200 := by decide
    have h6666 : crushDatacenter.root.get_osds * 100 % 2 ^ 32 / 3 = 6666 := by
      rw [hosd]
      norm_num
    have h1 : Crush.get_recommended_pgs crushDatacenter 3 =
        some (find_next_power_of_2 6666) := by
      unfold Crush.get_recommended_pgs
      rw [if_neg (by norm_num), h6666]
    rw [h1, fnp2_eval]
    decide

/-- C8 counterexample: with one osd and `replicas = 100` the argument of
`next_power_of_two` is 1, yet the implementation returns 0, which is not
the smallest power of two ≥ 1 (that is 1) — it is no power of two at
all. -/
theorem c8_counterexample :
    Crush.get_recommended_pgs crushOneOsd 100 = some 0 ∧ ¬ isPow2 0 := by
  constructor
  · have h1 : Crush.get_recommended_pgs crushOneOsd 100 =
        some (find_next_power_of_2 1) := rfl
    rw [h1, fnp2_eval]
    decide
  · rintro ⟨k, hk⟩
    have := pow_pos (show 0 < 2 by norm_num) k
    omega

/-- Witness for C8 at a concrete small argument. -/
theorem c8_witness : IsLeast {p | isPow2 p ∧ 5 ≤ p} (find_next_power_of_2 5) :=
  c8_recommended_pgs.2.1 5 (by norm_num) (by norm_num)

/-! ### C6 -/

/-- Sum of the stored weights of a children list. -/
def sumCW (l : List (String × Node)) : Nat := (l.map fun p => p.2.weight).sum

/-- Reachability from the empty engine by `add_weight` steps whose paths
satisfy `A` and arbitrary `set_inout` steps. -/
inductive ReachableA (A : List String → Prop) : Crush → Prop where
  | empty : ReachableA A emptyCrush
  | add (c : Crush) (p : List String) (delta : Int) :
      ReachableA A c → A p → ReachableA A (c.add_weight p delta)
  | inout (c c' : Crush) (p : List String) (b : Bool) :
      ReachableA A c → c.set_inout p b = some c' → ReachableA A c'

/-- Reachability by arbitrary `add_weight` and `set_inout` sequences. -/
def ReachableAny : Crush → Prop := ReachableA fun _ => True

mutual

/-- The spec's plain (non-wrapping) weight-roll-up invariant, as a
decidable check: every node with children has weight equal to the sum of
its children's weights. -/
def Node.invPlainB : Node → Bool
  | .mk w _ _ ch => (ch.isEmpty || (w == sumCW ch)) && childrenInvPlainB ch

/-- `Node.invPlainB` for every child. -/
def childrenInvPlainB : List (String × Node) → Bool
  | [] => true
  | (_, c) :: rest => c.invPlainB && childrenInvPlainB rest

end

/-- The engine that breaks the invariant: add a weight below `a`, then
add again at `a` itself. -/
def c6bad : Crush :=
  (emptyCrush.add_weight [("a" : String), ("b" : String)] 1).add_weight
    [("a" : String)] 1

/-- C6 counterexample: `c6bad` is reachable by two `add_weight` calls,
yet node `a` has one child of weight 1 and weight 2, so some node with
children violates `weight = Σ children`. -/
theorem c6_counterexample :
    ReachableAny c6bad ∧
    Node.invPlainB c6bad.root = false ∧
    c6bad.weightAt? [("a" : String)] = some 2 ∧
    c6bad.namesAt? [("a" : String)] = some [("b" : String)] ∧
    c6bad.weightAt? [("a" : String), ("b" : String)] = some 1 :=
  ⟨ReachableA.add _ _ _ (ReachableA.add _ _ _ ReachableA.empty trivial) trivial,
    by decide, by decide, by decide, by decide⟩

theorem get_append_one (q : List String) :
    ∀ (n : Node) (s : String),
      n.get (q ++ [s]) = (n.get q).bind fun x => lookupChild x.children s := by
  induction q with
  | nil =>
    intro n s
    cases hlk : lookupChild n.children s with
    | none => simp [Node.get, hlk]
    | some c => simp [Node.get, hlk]
  | cons a t ih =>
    intro n s
    simp only [List.cons_append, Node.get]
    cases hlk : lookupChild n.children a with
    | none => simp
    | some c => simp [ih c s]

theorem get_wfB (q : List String) :
    ∀ (n m : Node), Node.wfB n = true → n.get q = some m → Node.wfB m = true := by
  induction q with
  | nil =>
    intro n m hwf h
    cases h
    exact hwf
  | cons a t ih =>
    intro n m hwf h
    simp only [Node.get] at h
    cases hlk : lookupChild n.children a with
    | none => rw [hlk] at h; simp at h
    | some c =>
      rw [hlk] at h
      simp only [Option.some_bind] at h
      obtain ⟨n1, n2, n3, n4⟩ := n
      obtain ⟨hs, hc⟩ := Bool.and_eq_true_iff.mp hwf
      exact ih c m (childrenWfB_lookup n4 a c hc hlk) h

theorem wfB_defaultNode : Node.wfB Node.defaultNode = true := rfl

theorem charListLtB_total :
    ∀ a b, charListLtB a b = false → charListLtB b a = false → a = b := by
  intro a
  induction a with
  | nil =>
    intro b hab hba
    cases b with
    | nil => rfl
    | cons y ys => simp [charListLtB] at hab
  | cons x xs ih =>
    intro b hab hba
    cases b with
    | nil => simp [charListLtB] at hba
    | cons y ys =>
      simp only [charListLtB] at hab hba
      by_cases h1 : x.toNat < y.toNat
      · rw [if_pos h1] at hab
        cases hab
      · by_cases h2 : y.toNat < x.toNat
        · rw [if_pos h2] at hba
          cases hba
        · have hxy : x.toNat = y.toNat := by omega
          rw [if_neg h1, if_pos hxy] at hab
          rw [if_neg h2, if_pos hxy.symm] at hba
          have hchar : x = y := Char.eq_of_val_eq (UInt32.ext hxy)
          rw [hchar, ih ys hab hba]

theorem strLtB_total (s t : String) (h1 : strLtB s t = false)
    (h2 : strLtB t s = false) : s = t := by
  have hd : s.data = t.data := charListLtB_total s.data t.data h1 h2
  cases s
  cases t
  simp only [String.data] at hd
  rw [hd]

theorem keysSortedB_cons_iff (k : String) (l : List String) :
    keysSortedB (k :: l) = true ↔
      keysSortedB l = true ∧ ∀ s ∈ l, strLtB k s = true := by
  constructor
  · intro h
    exact ⟨keysSortedB_tail k l h, keysSortedB_head_lt k l h⟩
  · rintro ⟨h1, h2⟩
    cases l with
    | nil => rfl
    | cons b t =>
      have : keysSortedB (k :: b :: t) = (strLtB k b && keysSortedB (b :: t)) := rfl
      rw [this, h2 b (List.mem_cons_self ..), h1]
      rfl

theorem mem_insertKey (a s : String) :
    ∀ l, s ∈ insertKey l a → s = a ∨ s ∈ l := by
  intro l
  induction l with
  | nil => intro h; simpa [insertKey] using h
  | cons k rest ih =>
    intro h
    simp only [insertKey] at h
    by_cases h1 : strLtB a k = true
    · rw [if_pos h1] at h
      rcases List.mem_cons.mp h with rfl | h2
      · exact Or.inl rfl
      · exact Or.inr h2
    · rw [if_neg h1] at h
      by_cases h2 : a = k
      · rw [if_pos h2] at h
        rcases List.mem_cons.mp h with rfl | h3
        · exact Or.inl rfl
        · exact Or.inr (List.mem_cons_of_mem _ h3)
      · rw [if_neg h2] at h
        rcases List.mem_cons.mp h with rfl | h3
        · exact Or.inr (List.mem_cons_self ..)
        · rcases ih h3 with h4 | h4
          · exact Or.inl h4
          · exact Or.inr (List.mem_cons_of_mem _ h4)

theorem keysSortedB_insertKey (a : String) :
    ∀ l, keysSortedB l = true → keysSortedB (insertKey l a) = true := by
  intro l
  induction l with
  | nil => intro _; rfl
  | cons k rest ih =>
    intro h
    obtain ⟨hrest, hhead⟩ := (keysSortedB_cons_iff k rest).mp h
    simp only [insertKey]
    by_cases h1 : strLtB a k = true
    · rw [if_pos h1]
      refine (keysSortedB_cons_iff a (k :: rest)).mpr ⟨h, ?_⟩
      intro s hs
      rcases List.mem_cons.mp hs with rfl | hs2
      · exact h1
      · exact strLtB_trans _ _ _ h1 (hhead s hs2)
    · rw [if_neg h1]
      by_cases h2 : a = k
      · rw [if_pos h2]
        subst h2
        exact h
      · rw [if_neg h2]
        refine (keysSortedB_cons_iff k (insertKey rest a)).mpr ⟨ih hrest, ?_⟩
        intro s hs
        rcases mem_insertKey a s rest hs with rfl | hs2
        · cases hka : strLtB k s
          · exfalso
            have : s = k := strLtB_total s k (Bool.not_eq_true _ ▸ h1) hka
            exact h2 this
          · rfl
        · exact hhead s hs2

theorem childrenWfB_setChild (k : String) (c : Node) :
    ∀ l, childrenWfB l = true → Node.wfB c = true →
      childrenWfB (setChild l k c) = true := by
  intro l
  induction l with
  | nil =>
    intro _ hc
    simp only [setChild, childrenWfB, hc]
    rfl
  | cons hd tl ih =>
    obtain ⟨k0, v0⟩ := hd
    intro hl hc
    have hv0 : Node.wfB v0 = true := (Bool.and_eq_true_iff.mp hl).1
    have htl : childrenWfB tl = true := (Bool.and_eq_true_iff.mp hl).2
    simp only [setChild]
    by_cases h1 : strLtB k k0 = true
    · rw [if_pos h1]
      show (Node.wfB c && childrenWfB ((k0, v0) :: tl)) = true
      rw [hc, hl]
      rfl
    · rw [if_neg h1]
      by_cases h2 : k = k0
      · rw [if_pos h2]
        show (Node.wfB c && childrenWfB tl) = true
        rw [hc, htl]
        rfl
      · rw [if_neg h2]
        show (Node.wfB v0 && childrenWfB (setChild tl k c)) = true
        rw [hv0, ih htl hc]
        rfl

theorem add_weight_wfB (path : List String) :
    ∀ (n : Node) (delta : Int), Node.wfB n = true →
      Node.wfB (n.add_weight path delta) = true := by
  induction path with
  | nil =>
    intro n delta hwf
    obtain ⟨w, o, t, ch⟩ := n
    exact hwf
  | cons a rest ih =>
    intro n delta hwf
    obtain ⟨w, o, t, ch⟩ := n
    obtain ⟨hs, hc⟩ := Bool.and_eq_true_iff.mp hwf
    have hold : Node.wfB ((lookupChild ch a).getD Node.defaultNode) = true := by
      cases hlk : lookupChild ch a with
      | none => exact wfB_defaultNode
      | some c => exact childrenWfB_lookup ch a c hc hlk
    have hnew := ih ((lookupChild ch a).getD Node.defaultNode) delta hold
    show (keysSortedB ((setChild ch a (((lookupChild ch a).getD
        Node.defaultNode).add_weight rest delta)).map Prod.fst) &&
      childrenWfB (setChild ch a (((lookupChild ch a).getD
        Node.defaultNode).add_weight rest delta))) = true
    rw [keys_setChild, keysSortedB_insertKey a _ (by simpa using hs),
      childrenWfB_setChild a _ ch hc hnew]
    rfl

theorem set_inout_wfB (path : List String) :
    ∀ (n : Node) (b : Bool) (n' : Node), Node.wfB n = true →
      n.set_inout path b = some n' → Node.wfB n' = true := by
  induction path with
  | nil =>
    intro n b n' hwf h
    obtain ⟨w, o, t, ch⟩ := n
    simp only [Node.set_inout, Option.some.injEq] at h
    subst h
    exact hwf
  | cons a rest ih =>
    intro n b n' hwf h
    obtain ⟨w, o, t, ch⟩ := n
    simp only [Node.set_inout] at h
    cases hlk : lookupChild ch a with
    | none => rw [hlk] at h; simp at h
    | some c =>
      rw [hlk] at h
      simp only [Option.some_bind] at h
      cases hsi : c.set_inout rest b with
      | none => rw [hsi] at h; simp at h
      | some c' =>
        rw [hsi] at h
        rw [Option.map_some'] at h
        have h2 := Option.some.inj h
        subst h2
        obtain ⟨hs, hc⟩ := Bool.and_eq_true_iff.mp hwf
        have hc' : Node.wfB c' = true := ih c b c' (childrenWfB_lookup ch a c hc hlk) hsi
        show (keysSortedB ((setChild ch a c').map Prod.fst) &&
          childrenWfB (setChild ch a c')) = true
        rw [keys_setChild, keysSortedB_insertKey a _ (by simpa using hs),
          childrenWfB_setChild a c' ch hc hc']
        rfl

theorem keysSortedB_nodup : ∀ l, keysSortedB l = true → l.Nodup := by
  intro l h
  have hpw := keysSortedB_pairwise l h
  refine hpw.imp ?_
  intro a b hab
  rintro rfl
  rw [strLtB_irrefl] at hab
  cases hab

theorem insertKey_ne_nil (l : List String) (a : String) : insertKey l a ≠ [] := by
  cases l with
  | nil => simp [insertKey]
  | cons k rest =>
    simp only [insertKey]
    by_cases h1 : strLtB a k = true
    · simp [h1]
    · by_cases h2 : a = k <;> simp [h1, h2, strLtB_irrefl]

theorem insertKey_of_mem (a : String) :
    ∀ l, keysSortedB l = true → a ∈ l → insertKey l a = l := by
  intro l
  induction l with
  | nil => intro _ h; simp at h
  | cons k rest ih =>
    intro hs hmem
    simp only [insertKey]
    rcases List.mem_cons.mp hmem with rfl | hmem2
    · rw [if_neg (by rw [strLtB_irrefl]; simp), if_pos rfl]
    · have hlt : strLtB k a = true := keysSortedB_head_lt k rest hs a hmem2
      have h1 : strLtB a k = false := strLtB_asymm k a hlt
      have h2 : a ≠ k := by
        rintro rfl
        rw [strLtB_irrefl] at hlt
        cases hlt
      rw [if_neg (by rw [h1]; simp), if_neg h2,
        ih (keysSortedB_tail k rest hs) hmem2]

/-- Wrapped values stay below the modulus. -/
theorem wrap64_lt (x : Int) : wrap64 x < 2 ^ 64 := by
  unfold wrap64
  have h1 : x % (2 ^ 64 : Int) < 2 ^ 64 := Int.emod_lt_of_pos x (by norm_num)
  omega

/-- The wrap is the integer remainder. -/
theorem wrap64_coe (x : Int) : (wrap64 x : Int) = x % (2 ^ 64 : Int) := by
  unfold wrap64
  have h1 : (0 : Int) ≤ x % (2 ^ 64 : Int) := Int.emod_nonneg x (by norm_num)
  omega

theorem sumCW_by_keys :
    ∀ l : List (String × Node), (l.map Prod.fst).Nodup →
      sumCW l = ((l.map Prod.fst).map fun s => optW (lookupChild l s)).sum := by
  intro l
  induction l with
  | nil => intro _; rfl
  | cons hd rest ih =>
    obtain ⟨k, v⟩ := hd
    intro hnd
    have hk : k ∉ rest.map Prod.fst := (List.nodup_cons.mp (by simpa using hnd)).1
    have hnd2 : (rest.map Prod.fst).Nodup := (List.nodup_cons.mp (by simpa using hnd)).2
    simp only [List.map_cons, List.sum_cons, sumCW]
    have hlk : lookupChild ((k, v) :: rest) k = some v := by simp [lookupChild]
    rw [hlk]
    have hcongr : (rest.map Prod.fst).map (fun s => optW (lookupChild ((k, v) :: rest) s)) =
        (rest.map Prod.fst).map fun s => optW (lookupChild rest s) := by
      apply List.map_congr_left
      intro s hs
      have hsk : s ≠ k := by
        rintro rfl
        exact hk hs
      simp [lookupChild, hsk]
    rw [hcongr]
    have := ih hnd2
    simp only [sumCW] at this
    rw [← this]
    simp [optW]

theorem sum_update_one (a : String) (f f' : String → Nat) :
    ∀ K : List String, K.Nodup → a ∈ K → (∀ s ∈ K, s ≠ a → f' s = f s) →
      (K.map f').sum + f a = (K.map f).sum + f' a := by
  intro K
  induction K with
  | nil => intro _ h; simp at h
  | cons k rest ih =>
    intro hnd hmem hoff
    obtain ⟨hk, hnd2⟩ := List.nodup_cons.mp hnd
    simp only [List.map_cons, List.sum_cons]
    rcases List.mem_cons.mp hmem with rfl | hmem2
    · have hrest : rest.map f' = rest.map f := by
        apply List.map_congr_left
        intro s hs
        exact hoff s (List.mem_cons_of_mem _ hs) (by rintro rfl; exact hk hs)
      rw [hrest]
      omega
    · have hfk : f' k = f k := hoff k (List.mem_cons_self ..) (by rintro rfl; exact hk hmem2)
      have := ih hnd2 hmem2 fun s hs hsa => hoff s (List.mem_cons_of_mem _ hs) hsa
      omega

theorem sum_insertKey_not_mem (a : String) (f : String → Nat) :
    ∀ K : List String, a ∉ K →
      ((insertKey K a).map f).sum = (K.map f).sum + f a := by
  intro K
  induction K with
  | nil => intro _; simp [insertKey]
  | cons k rest ih =>
    intro hmem
    have hak : a ≠ k := by
      rintro rfl
      exact hmem (List.mem_cons_self ..)
    have harest : a ∉ rest := fun h => hmem (List.mem_cons_of_mem _ h)
    simp only [insertKey]
    by_cases h1 : strLtB a k = true
    · rw [if_pos h1]
      simp only [List.map_cons, List.sum_cons]
      omega
    · rw [if_neg h1, if_neg hak]
      simp only [List.map_cons, List.sum_cons, ih harest]
      omega

theorem wrap_add_sum (S Sum2 wa : Nat) (delta : Int)
    (h : Sum2 + wa = S + wrap64 ((wa : Int) + delta)) :
    wrap64 (((S % 2 ^ 64 : Nat) : Int) + delta) = Sum2 % 2 ^ 64 := by
  have h1 : (wrap64 ((wa : Int) + delta) : Int) = ((wa : Int) + delta) % (2 ^ 64 : Int) :=
    wrap64_coe _
  have h2 : (wrap64 (((S % 2 ^ 64 : Nat) : Int) + delta) : Int) =
      (((S % 2 ^ 64 : Nat) : Int) + delta) % (2 ^ 64 : Int) := wrap64_coe _
  omega

theorem pfx_proper (q p : List String) (h : q <+: p) (hne : q ≠ p) :
    ∃ a rest, p = q ++ a :: rest := by
  obtain ⟨r, hr⟩ := h
  cases r with
  | nil => exact absurd (by simpa using hr) hne
  | cons a rest => exact ⟨a, rest, hr.symm⟩

theorem pfx_snoc_eq (q : List String) (s a : String) (rest : List String)
    (h : (q ++ [s]) <+: (q ++ a :: rest)) : s = a := by
  obtain ⟨r, hr⟩ := h
  rw [List.append_assoc] at hr
  have h2 : [s] ++ r = a :: rest := List.append_cancel_left hr
  simpa using congrArg (fun l => l.headI) h2

theorem lookup_none_of_not_mem_keys (l : List (String × Node)) (s : String)
    (h : s ∉ l.map Prod.fst) : lookupChild l s = none := by
  cases hlk : lookupChild l s with
  | none => rfl
  | some c => exact absurd (lookup_mem_keys l s c hlk) h

theorem get_child_of_get (r : Node) (q : List String) (m : Node) (s : String)
    (h : r.get q = some m) : r.get (q ++ [s]) = lookupChild m.children s := by
  rw [get_append_one, h]
  rfl

/-- The weight-roll-up invariant (wrapped mod 2^64). -/
def InvSum (c : Crush) : Prop :=
  ∀ q n, c.root.get q = some n → n.children ≠ [] →
    n.weight = sumCW n.children % 2 ^ 64

/-- Nodes addressed by an allowed path have no children. -/
def InvTerm (A : List String → Prop) (c : Crush) : Prop :=
  ∀ p, A p → ∀ n, c.root.get p = some n → n.children = []

/-- Childless nodes strictly above an allowed path have weight 0. -/
def InvStub (A : List String → Prop) (c : Crush) : Prop :=
  ∀ p q, A p → q <+: p → q ≠ p → ∀ n, c.root.get q = some n →
    n.children = [] → n.weight = 0

theorem wfB_sorted (n : Node) (h : Node.wfB n = true) :
    keysSortedB (n.children.map Prod.fst) = true := by
  obtain ⟨w, o, t, ch⟩ := n
  exact (Bool.and_eq_true_iff.mp h).1

theorem children_eq_nil_of_map_fst (l : List (String × Node))
    (h : l.map Prod.fst = []) : l = [] := by
  cases l with
  | nil => rfl
  | cons a t => simp at h

theorem inv_add (A : List String → Prop)
    (hA : ∀ p q, A p → A q → p <+: q → p = q)
    (c : Crush) (p : List String) (delta : Int) (hp : A p)
    (hwf : Node.wfB c.root = true) (hterm : InvTerm A c) (hstub : InvStub A c)
    (hsum : InvSum c) :
    Node.wfB (c.add_weight p delta).root = true ∧
    InvTerm A (c.add_weight p delta) ∧
    InvStub A (c.add_weight p delta) ∧
    InvSum (c.add_weight p delta) := by
  have hroot : (c.add_weight p delta).root = c.root.add_weight p delta := rfl
  have hwf' : Node.wfB (c.add_weight p delta).root = true := by
    rw [hroot]
    exact add_weight_wfB p c.root delta hwf
  refine ⟨hwf', ?_, ?_, ?_⟩
  · intro p' hp' n hg
    rw [hroot] at hg
    by_cases hpf : p' <+: p
    · have hpp : p' = p := hA p' p hp' hp hpf
      subst hpp
      obtain ⟨m, hm, _, _, hkeq, _⟩ :=
        add_weight_get_on p' c.root delta p' ⟨[], by simp⟩
      rw [hm] at hg
      have hnm := Option.some.inj hg
      subst hnm
      have hkn : m.children.map Prod.fst = optKeys (c.root.get p') := hkeq rfl
      apply children_eq_nil_of_map_fst
      rw [hkn]
      cases hold : c.root.get p' with
      | none => rfl
      | some n0 =>
        have h0 : n0.children = [] := hterm p' hp' n0 hold
        simp [optKeys, h0]
    · rw [add_weight_get_off p c.root delta p' hpf] at hg
      exact hterm p' hp' n hg
  · intro p' q hp' hqp hqne n hg hch
    rw [hroot] at hg
    by_cases hpf : q <+: p
    · by_cases hqpath : q = p
      · subst hqpath
        have : q = p' := hA q p' hp hp' hqp
        exact absurd this hqne
      · obtain ⟨a, rest, hdec⟩ := pfx_proper q p hpf hqpath
        obtain ⟨m, hm, _, _, _, hkne⟩ := add_weight_get_on p c.root delta q hpf
        rw [hm] at hg
        have hnm := Option.some.inj hg
        subst hnm
        have hkn : m.children.map Prod.fst = insertKey (optKeys (c.root.get q)) a :=
          hkne a rest hdec
        rw [hch] at hkn
        exact absurd hkn.symm (insertKey_ne_nil _ _)
    · rw [add_weight_get_off p c.root delta q hpf] at hg
      exact hstub p' q hp' hqp hqne n hg hch
  · intro q n hg hne
    rw [hroot] at hg
    by_cases hpf : q <+: p
    · by_cases hqpath : q = p
      · subst hqpath
        obtain ⟨m, hm, _, _, hkeq, _⟩ :=
          add_weight_get_on q c.root delta q ⟨[], by simp⟩
        rw [hm] at hg
        have hnm := Option.some.inj hg
        subst hnm
        have hkn : m.children.map Prod.fst = optKeys (c.root.get q) := hkeq rfl
        exfalso
        apply hne
        apply children_eq_nil_of_map_fst
        rw [hkn]
        cases hold : c.root.get q with
        | none => rfl
        | some n0 =>
          have h0 : n0.children = [] := hterm q hp n0 hold
          simp [optKeys, h0]
      · obtain ⟨a, rest, hdec⟩ := pfx_proper q p hpf hqpath
        obtain ⟨m, hm, hw, _, _, hkne⟩ := add_weight_get_on p c.root delta q hpf
        rw [hm] at hg
        have hnm := Option.some.inj hg
        subst hnm
        have hkn : m.children.map Prod.fst = insertKey (optKeys (c.root.get q)) a :=
          hkne a rest hdec
        have hmwf : Node.wfB m = true := by
          rw [hroot] at hwf'
          exact get_wfB q (c.root.add_weight p delta) m hwf' hm
        have hmnodup : (m.children.map Prod.fst).Nodup :=
          keysSortedB_nodup _ (wfB_sorted m hmwf)
        rw [sumCW_by_keys m.children hmnodup]
        have hmap1 : (m.children.map Prod.fst).map
              (fun s => optW (lookupChild m.children s)) =
            (m.children.map Prod.fst).map
              (fun s => optW ((c.root.add_weight p delta).get (q ++ [s]))) := by
          apply List.map_congr_left
          intro s _
          rw [(get_child_of_get _ q m s hm).symm]
        rw [hmap1, hkn]
        have hoff : ∀ s, s ≠ a →
            (c.root.add_weight p delta).get (q ++ [s]) = c.root.get (q ++ [s]) := by
          intro s hs
          apply add_weight_get_off
          intro hps
          rw [hdec] at hps
          exact hs (pfx_snoc_eq q s a rest hps)
        have hqa : (q ++ [a]) <+: p := by
          rw [hdec]
          exact ⟨rest, by simp⟩
        obtain ⟨ma, hma, hwa, _, _, _⟩ := add_weight_get_on p c.root delta (q ++ [a]) hqa
        have hfa : optW ((c.root.add_weight p delta).get (q ++ [a])) =
            wrap64 ((optW (c.root.get (q ++ [a])) : Int) + delta) := by
          rw [hma]
          have hma2 : optW (some ma) = ma.weight := rfl
          rw [hma2, hwa]
        cases hold : c.root.get q with
        | none =>
          have hK : optKeys (none : Option Node) = [] := rfl
          have hfa0 : optW (c.root.get (q ++ [a])) = 0 := by
            rw [get_append_one, hold]
            rfl
          rw [hK]
          simp only [insertKey, List.map_cons, List.map_nil, List.sum_cons, List.sum_nil]
          rw [hw, hold, hfa, hfa0]
          have h00 : optW (none : Option Node) = 0 := rfl
          rw [h00, Nat.add_zero]
          exact (Nat.mod_eq_of_lt (wrap64_lt _)).symm
        | some n0 =>
          have hK : optKeys (some n0) = n0.children.map Prod.fst := rfl
          by_cases hc0 : n0.children = []
          · have hw0 : n0.weight = 0 := hstub p q hp hpf hqpath n0 hold hc0
            have hfa0 : optW (c.root.get (q ++ [a])) = 0 := by
              rw [get_append_one, hold]
              simp only [Option.some_bind, hc0]
              rfl
            rw [hK, hc0]
            simp only [List.map_nil, insertKey, List.map_cons, List.sum_cons, List.sum_nil]
            rw [hw, hold, hfa, hfa0]
            have hwn0 : optW (some n0) = n0.weight := rfl
            rw [hwn0, hw0, Nat.add_zero]
            exact (Nat.mod_eq_of_lt (wrap64_lt _)).symm
          · have hS : n0.weight = sumCW n0.children % 2 ^ 64 := hsum q n0 hold hc0
            have hn0wf : Node.wfB n0 = true := get_wfB q c.root n0 hwf hold
            have hn0sort := wfB_sorted n0 hn0wf
            have hn0nodup := keysSortedB_nodup _ hn0sort
            have hSsum : sumCW n0.children =
                ((n0.children.map Prod.fst).map
                  (fun s => optW (c.root.get (q ++ [s])))).sum := by
              rw [sumCW_by_keys n0.children hn0nodup]
              congr 1
              apply List.map_congr_left
              intro s _
              rw [(get_child_of_get c.root q n0 s hold).symm]
            rw [hK]
            by_cases hmem : a ∈ n0.children.map Prod.fst
            · rw [insertKey_of_mem a _ hn0sort hmem]
              have hupd : ((n0.children.map Prod.fst).map
                  (fun s => optW ((c.root.add_weight p delta).get (q ++ [s])))).sum +
                  optW (c.root.get (q ++ [a])) =
                  ((n0.children.map Prod.fst).map
                    (fun s => optW (c.root.get (q ++ [s])))).sum +
                  optW ((c.root.add_weight p delta).get (q ++ [a])) :=
                sum_update_one a _ _ (n0.children.map Prod.fst) hn0nodup hmem
                  (fun s _ hs => by
                    show optW ((c.root.add_weight p delta).get (q ++ [s])) =
                      optW (c.root.get (q ++ [s]))
                    rw [hoff s hs])
              rw [hw, hold]
              have hwn0 : optW (some n0) = n0.weight := rfl
              rw [hwn0, hS]
              apply wrap_add_sum (sumCW n0.children) _
                (optW (c.root.get (q ++ [a]))) delta
              rw [hSsum, ← hfa]
              exact hupd
            · have hflist : ((insertKey (n0.children.map Prod.fst) a).map
                  (fun s => optW ((c.root.add_weight p delta).get (q ++ [s])))).sum =
                  ((n0.children.map Prod.fst).map
                    (fun s => optW ((c.root.add_weight p delta).get (q ++ [s])))).sum +
                  optW ((c.root.add_weight p delta).get (q ++ [a])) :=
                sum_insertKey_not_mem a _ _ hmem
              have hsame : ((n0.children.map Prod.fst).map
                  (fun s => optW ((c.root.add_weight p delta).get (q ++ [s])))).sum =
                  ((n0.children.map Prod.fst).map
                    (fun s => optW (c.root.get (q ++ [s])))).sum := by
                congr 1
                apply List.map_congr_left
                intro s hs
                have hsa : s ≠ a := by
                  rintro rfl
                  exact hmem hs
                rw [hoff s hsa]
              have hfa0 : optW (c.root.get (q ++ [a])) = 0 := by
                rw [get_append_one, hold]
                simp only [Option.some_bind]
                rw [lookup_none_of_not_mem_keys n0.children a hmem]
                rfl
              rw [hflist, hsame, hfa, hfa0]
              rw [hw, hold]
              have hwn0 : optW (some n0) = n0.weight := rfl
              rw [hwn0, hS, ← hSsum]
              apply wrap_add_sum (sumCW n0.children) _ 0 delta
              omega
    · rw [add_weight_get_off p c.root delta q hpf] at hg
      exact hsum q n hg hne

theorem inv_inout (A : List String → Prop) (c c' : Crush) (p : List String) (b : Bool)
    (hs : c.set_inout p b = some c')
    (hwf : Node.wfB c.root = true) (hterm : InvTerm A c) (hstub : InvStub A c)
    (hsum : InvSum c) :
    Node.wfB c'.root = true ∧ InvTerm A c' ∧ InvStub A c' ∧ InvSum c' := by
  unfold Crush.set_inout at hs
  cases hr : c.root.set_inout p b with
  | none => rw [hr] at hs; simp at hs
  | some r =>
    rw [hr, Option.map_some'] at hs
    have hc' := Option.some.inj hs
    subst hc'
    obtain ⟨io, iw, ik, ioff⟩ := set_inout_get p c.root b r hwf hr
    have hwr : Node.wfB r = true := set_inout_wfB p c.root b r hwf hr
    refine ⟨hwr, ?_, ?_, ?_⟩
    · intro p' hp' n hg
      have hik := ik p'
      rw [hg] at hik
      cases hold : c.root.get p' with
      | none => rw [hold] at hik; simp at hik
      | some n0 =>
        rw [hold] at hik
        simp only [Option.map_some', Option.some.injEq] at hik
        have h0 : n0.children = [] := hterm p' hp' n0 hold
        apply children_eq_nil_of_map_fst
        rw [hik, h0]
        rfl
    · intro p' q hp' hqp hqne n hg hch
      have hik := ik q
      have hiw := iw q
      rw [hg] at hik hiw
      cases hold : c.root.get q with
      | none => rw [hold] at hik; simp at hik
      | some n0 =>
        rw [hold] at hik hiw
        simp only [Option.map_some', Option.some.injEq] at hik hiw
        have h0 : n0.children = [] := by
          apply children_eq_nil_of_map_fst
          rw [← hik, hch]
          rfl
        rw [hiw]
        exact hstub p' q hp' hqp hqne n0 hold h0
    · intro q n hg hne
      have hik := ik q
      have hiw := iw q
      rw [hg] at hik hiw
      cases hold : c.root.get q with
      | none => rw [hold] at hik; simp at hik
      | some n0 =>
        rw [hold] at hik hiw
        simp only [Option.map_some', Option.some.injEq] at hik hiw
        have hne0 : n0.children ≠ [] := by
          intro h0
          apply hne
          apply children_eq_nil_of_map_fst
          rw [hik, h0]
          rfl
        have hS := hsum q n0 hold hne0
        have hnwf : Node.wfB n = true := get_wfB q r n hwr hg
        have hn0wf : Node.wfB n0 = true := get_wfB q c.root n0 hwf hold
        have hnd : (n.children.map Prod.fst).Nodup :=
          keysSortedB_nodup _ (wfB_sorted n hnwf)
        have hnd0 : (n0.children.map Prod.fst).Nodup :=
          keysSortedB_nodup _ (wfB_sorted n0 hn0wf)
        rw [sumCW_by_keys n.children hnd, hiw, hS, sumCW_by_keys n0.children hnd0]
        congr 2
        rw [hik]
        apply List.map_congr_left
        intro s _
        rw [(get_child_of_get r q n s hg).symm,
          (get_child_of_get c.root q n0 s hold).symm]
        have hiws := iw (q ++ [s])
        simp only [optW]
        rw [hiws]

theorem reachable_inv (A : List String → Prop)
    (hA : ∀ p q, A p → A q → p <+: q → p = q) :
    ∀ c, ReachableA A c →
      Node.wfB c.root = true ∧ InvTerm A c ∧ InvStub A c ∧ InvSum c := by
  intro c h
  induction h with
  | empty =>
    refine ⟨rfl, ?_, ?_, ?_⟩
    · intro p _ n hg
      cases p with
      | nil => cases hg; rfl
      | cons a t => simp [Node.get, emptyCrush, Node.defaultNode, lookupChild] at hg
    · intro p q _ _ _ n hg _
      cases q with
      | nil => cases hg; rfl
      | cons a t => simp [Node.get, emptyCrush, Node.defaultNode, lookupChild] at hg
    · intro q n hg hne
      cases q with
      | nil => cases hg; exact absurd rfl hne
      | cons a t => simp [Node.get, emptyCrush, Node.defaultNode, lookupChild] at hg
  | add c p delta _ hp ih =>
    exact inv_add A hA c p delta hp ih.1 ih.2.1 ih.2.2.1 ih.2.2.2
  | inout c c' p b _ hs ih =>
    exact inv_inout A c c' p b hs ih.1 ih.2.1 ih.2.2.1 ih.2.2.2

/-- C6 (amended): for every state reachable from the empty engine by
`set_inout` steps and `add_weight` steps whose paths form an antichain
under the prefix order (no add path is a strict prefix of another's —
i.e. weights are only ever added at leaf positions), every node with at
least one child has weight equal to the sum of its children's weights
taken mod 2^64 (the wrap of the `u64` cast chain; plain equality
whenever the sum does not overflow). -/
theorem c6_weight_rollup (A : List String → Prop)
    (hA : ∀ p q, A p → A q → p <+: q → p = q)
    (c : Crush) (hre : ReachableA A c) :
    ∀ q n, c.root.get q = some n → n.children ≠ [] →
      n.weight = sumCW n.children % 2 ^ 64 :=
  (reachable_inv A hA c hre).2.2.2

/-- The two-osd engine used to witness the amended C6. -/
def c6good : Crush :=
  (emptyCrush.add_weight [("osd.1" : String)] 1).add_weight [("osd.2" : String)] 1

/-- The antichain of paths used to build `c6good`. -/
def c6paths (p : List String) : Prop :=
  p = [("osd.1" : String)] ∨ p = [("osd.2" : String)]

theorem c6paths_antichain :
    ∀ p q, c6paths p → c6paths q → p <+: q → p = q := by
  intro p q hp hq hpq
  rcases hp with rfl | rfl <;> rcases hq with rfl | rfl
  · rfl
  · obtain ⟨r, hr⟩ := hpq
    have := congrArg (fun l => l.headI) hr
    simp at this
  · obtain ⟨r, hr⟩ := hpq
    have := congrArg (fun l => l.headI) hr
    simp at this
  · rfl

/-- Witness for the amended C6 at a concrete engine. -/
theorem c6_witness :
    c6good.root.weight = sumCW c6good.root.children % 2 ^ 64 :=
  c6_weight_rollup c6paths c6paths_antichain c6good
    (ReachableA.add _ _ _ (ReachableA.add _ _ _ ReachableA.empty (Or.inl rfl))
      (Or.inr rfl))
    [] c6good.root rfl fun h =>
      absurd (by rw [h]; rfl : List.map Prod.fst c6good.root.children = [])
        (by decide)
